import Mathlib

/-! # Robin-Hood hash map with a linked backing sequence (`hashmap.h`)

Shallow embedding of `HashMap<KeyType, ValueType, Hash>`.

* `size_t` is modelled by `Nat` (unbounded naturals; the counters of the class
  stay far below `2^64` for any table that fits in memory).
* The raw arrays `move_cnt_` and `list_iters_` are modelled as total maps from
  an index to a cell, exactly as the class holds them: a bare pointer next to
  the separate field `cap_`.
* A node of the `std::list` carries an identity `id` (its address); an iterator
  is either default-constructed, the past-the-end iterator, or designates a node
  by its identity.  `fresh_` is the allocator: the identity the next
  `emplace_back` hands out.
* Every `while` loop is a function by structural recursion on a fuel counter;
  it yields `none` when the fuel is exhausted or when an iterator that does not
  designate a live node is dereferenced.
-/

namespace Hashmap

variable {K V : Type}

/-- Node of `std::list<std::pair<const KeyType, ValueType>>`. -/
structure Node (K V : Type) where
  id : Nat
  first : K
  second : V
  deriving DecidableEq

/-- Iterators of the list (`lst::iterator`). -/
inductive Iter where
  | singular : Iter
  | past_end : Iter
  | node (id : Nat) : Iter
  deriving DecidableEq

/-- Data members of `HashMap`. -/
structure HashMap (K V : Type) where
  hasher_ : K → Nat
  move_cnt_ : Nat → Nat
  elem_list_ : List (Node K V)
  list_iters_ : Nat → Iter
  cap_ : Nat
  size_ : Nat
  fresh_ : Nat

/-- Dereference of an iterator (`it->first`, `it->second`): the node it designates, if live. -/
def deref (el : List (Node K V)) : Iter → Option (Node K V)
  | Iter.node i => el.find? (fun nd => nd.id == i)
  | _ => none

/-- The statements `pos++; if (pos == cap_) pos = 0;`. -/
def wrap_inc (cap pos : Nat) : Nat :=
  if pos + 1 = cap then 0 else pos + 1

/-- The iteration sequence `begin() .. end()` as (key, value) pairs. -/
def HashMap.entries (m : HashMap K V) : List (K × V) :=
  m.elem_list_.map (fun nd => (nd.first, nd.second))

/-- Method `size()`. -/
def HashMap.size (m : HashMap K V) : Nat := m.size_

/-- Method `empty()`. -/
def HashMap.empty (m : HashMap K V) : Bool := m.size_ == 0

/-- Loop of `is_prime`: `for (i = 2; i * i <= num; i++)`. -/
def is_prime_loop (num : Nat) : Nat → Nat → Option Bool
  | 0, _ => none
  | fuel + 1, i =>
    if i * i ≤ num then
      if num % i = 0 then some false else is_prime_loop num fuel (i + 1)
    else some true

/-- Method `is_prime`; `num + 1` iterations are enough for the loop (`is_prime_spec`). -/
def is_prime (num : Nat) : Option Bool := is_prime_loop num (num + 1) 2

/-- Loop `while (!is_prime(cap_)) cap_ += 2;` of `rebuild`. -/
def grow_cap_loop : Nat → Nat → Option Nat
  | 0, _ => none
  | fuel + 1, cap =>
    match is_prime cap with
    | none => none
    | some true => some cap
    | some false => grow_cap_loop fuel (cap + 2)

/-- Method `make_new_arrays`. -/
def make_new_arrays (m : HashMap K V) : HashMap K V :=
  { m with size_ := 0, move_cnt_ := fun _ => 0, list_iters_ := fun _ => Iter.singular }

/-- Method `init`. -/
def init (m : HashMap K V) (cap : Nat) : HashMap K V :=
  make_new_arrays { m with cap_ := cap }

/-- Constructor `HashMap(Hash hasher, size_t cap)`. -/
def HashMap.mk_cap (hasher : K → Nat) (cap : Nat) : HashMap K V :=
  init ⟨hasher, fun _ => 0, [], fun _ => Iter.singular, 0, 0, 0⟩ cap

/-- Default construction: `cap = 11`. -/
def HashMap.mk_default (hasher : K → Nat) : HashMap K V :=
  HashMap.mk_cap hasher 11

section ops
variable [DecidableEq K]

/-- Loop of `find_pos`. -/
def find_pos_loop (m : HashMap K V) (key : K) : Nat → Nat → Option Nat
  | 0, _ => none
  | fuel + 1, pos =>
    if m.move_cnt_ pos ≠ 0 then
      match deref m.elem_list_ (m.list_iters_ pos) with
      | none => none
      | some nd =>
        if nd.first = key then some pos
        else find_pos_loop m key fuel (wrap_inc m.cap_ pos)
    else some pos

/-- Method `find_pos`.  The scan is given `cap_` iterations: after `cap_` slots it has seen the
whole table, so a scan that has not stopped by then never stops. -/
def find_pos (m : HashMap K V) (key : K) : Option Nat :=
  find_pos_loop m key m.cap_ (m.hasher_ key % m.cap_)

/-- The `while (true)` loop of `insert`. -/
def insert_loop (cap : Nat) :
    Nat → (Nat → Nat) → (Nat → Iter) → Nat → Iter → Nat → Option ((Nat → Nat) × (Nat → Iter))
  | 0, _, _, _, _, _ => none
  | fuel + 1, mc, li, pos, now, step_now =>
    if mc pos < step_now then
      if mc pos = 0 then
        some (Function.update mc pos step_now, Function.update li pos now)
      else
        insert_loop cap fuel (Function.update mc pos step_now) (Function.update li pos now)
          (wrap_inc cap pos) (li pos) (mc pos + 1)
    else insert_loop cap fuel mc li (wrap_inc cap pos) now (step_now + 1)

/-- Lines 60-81 of `insert`: append the node, run the probe loop, `size_++`.  The probe loop is
given `cap_` iterations, which `insert_core_spec` shows to be enough whenever a slot is free. -/
def insert_core (m : HashMap K V) (key : K) (val : V) : Option (HashMap K V) :=
  match insert_loop m.cap_ m.cap_ m.move_cnt_ m.list_iters_ (m.hasher_ key % m.cap_)
      (Iter.node m.fresh_) 1 with
  | none => none
  | some (mc, li) =>
    some { m with
      move_cnt_ := mc, list_iters_ := li,
      elem_list_ := m.elem_list_ ++ [⟨m.fresh_, key, val⟩],
      size_ := m.size_ + 1, fresh_ := m.fresh_ + 1 }

/-- Method `rebuild`, with the `insert` it calls passed as `ins`.  The capacity search is given
`cap_ + 1` primality tests, which `grow_cap_rebuild` shows to be enough. -/
def rebuild_with (ins : HashMap K V → K → V → Option (HashMap K V × Nat)) (m : HashMap K V) :
    Option (HashMap K V) :=
  match grow_cap_loop (m.cap_ + 1) (m.cap_ * 2 + 1) with
  | none => none
  | some cap =>
    let m1 := make_new_arrays { m with cap_ := cap }
    let elems := m1.elem_list_
    elems.foldlM (fun s nd => (ins s nd.first nd.second).map Prod.fst)
      { m1 with elem_list_ := [] }

/-- Method `insert(key, val)`; the first argument bounds the nesting of `insert` and `rebuild`. -/
def insert_aux : Nat → HashMap K V → K → V → Option (HashMap K V × Nat)
  | 0, _, _, _ => none
  | d + 1, m, key, val =>
    match insert_core m key val with
    | none => none
    | some m1 =>
      match (if m1.size_ * 2 > m1.cap_ then
          rebuild_with (fun s k v => insert_aux d s k v) m1 else some m1) with
      | none => none
      | some m2 => (find_pos m2 key).map (fun p => (m2, p))

/-- Method `insert`: one level of `rebuild`, whose reinsertions do not rebuild again. -/
def insert (m : HashMap K V) (key : K) (val : V) : Option (HashMap K V × Nat) :=
  insert_aux 2 m key val

/-- Method `rebuild`. -/
def rebuild (m : HashMap K V) : Option (HashMap K V) :=
  rebuild_with (fun s k v => insert_aux 1 s k v) m

/-- The call `elem_list_.erase(it)`. -/
def list_erase (el : List (Node K V)) (it : Iter) : Option (List (Node K V)) :=
  match deref el it with
  | none => none
  | some nd => some (el.eraseP (fun x => x.id == nd.id))

/-- The backward-shift loop of `erase`. -/
def erase_loop (cap : Nat) :
    Nat → (Nat → Nat) → (Nat → Iter) → Nat → Nat → Option ((Nat → Nat) × (Nat → Iter))
  | 0, _, _, _, _ => none
  | fuel + 1, mc, li, pos, next =>
    if mc next > 1 then
      erase_loop cap fuel
        (Function.update (Function.update mc pos (mc next - 1)) next 0)
        (Function.update li pos (li next))
        (wrap_inc cap pos) (wrap_inc cap next)
    else some (mc, li)

/-- Method `erase`.  The backward shift is given `cap_` tests of its condition, which
`erase_spec` shows to be enough on well-formed states. -/
def erase (m : HashMap K V) (key : K) : Option (HashMap K V) :=
  match find_pos m key with
  | none => none
  | some pos =>
    if m.move_cnt_ pos = 0 then some m
    else
      match list_erase m.elem_list_ (m.list_iters_ pos) with
      | none => none
      | some el =>
        match erase_loop m.cap_ m.cap_ (Function.update m.move_cnt_ pos 0) m.list_iters_ pos
            (if pos + 1 = m.cap_ then 0 else pos + 1) with
        | none => none
        | some (mc, li) =>
          some { m with elem_list_ := el, move_cnt_ := mc, list_iters_ := li,
                        size_ := m.size_ - 1 }

/-- Method `clear`. -/
def clear (m : HashMap K V) : Option (HashMap K V) :=
  m.elem_list_.foldlM (fun s nd => erase s nd.first) m

/-- Method `operator[]`: the new state and the node whose `second` the returned reference is. -/
def index [Inhabited V] (m : HashMap K V) (key : K) : Option (HashMap K V × Node K V) :=
  match find_pos m key with
  | none => none
  | some pos =>
    if m.move_cnt_ pos = 0 then
      match insert m key default with
      | none => none
      | some (m1, pos1) => (deref m1.elem_list_ (m1.list_iters_ pos1)).map (fun nd => (m1, nd))
    else (deref m.elem_list_ (m.list_iters_ pos)).map (fun nd => (m, nd))

/-- Method `at`: `Except.error` is the thrown `std::out_of_range`. -/
def at_ (m : HashMap K V) (key : K) : Option (Except String V) :=
  match find_pos m key with
  | none => none
  | some pos =>
    if m.move_cnt_ pos = 0 then some (Except.error "Element not found")
    else (deref m.elem_list_ (m.list_iters_ pos)).map (fun nd => Except.ok nd.second)

/-- A call of `at` as a transition: the result and the state after the call.  The method is a
`const` member function, so the state after the call is the state before it, whether the call
returns or throws. -/
def at_call (m : HashMap K V) (key : K) : Option (Except String V × HashMap K V) :=
  (at_ m key).map (fun r => (r, m))

/-- Method `find`. -/
def find (m : HashMap K V) (key : K) : Option Iter :=
  match find_pos m key with
  | none => none
  | some pos =>
    if m.move_cnt_ pos = 0 then some Iter.past_end
    else some (m.list_iters_ pos)

/-- The loop `while (it != end) { insert(it->first, it->second); it++; }` of the range and
list constructors. -/
def insert_all (m : HashMap K V) (l : List (K × V)) : Option (HashMap K V) :=
  l.foldlM (fun s kv => (insert s kv.1 kv.2).map Prod.fst) m

/-- Constructors `HashMap(begin, end, hasher)` and `HashMap(list, hasher)`. -/
def HashMap.mk_range (hasher : K → Nat) (l : List (K × V)) : Option (HashMap K V) :=
  insert_all (init ⟨hasher, fun _ => 0, [], fun _ => Iter.singular, 0, 0, 0⟩ 11) l

/-- Copy constructor `HashMap(const HashMap& other)`: the members of the new object start from
their initialisers (empty list, no arrays), then `hasher_` is copied, `cap_` is set to
`std::max(11ul, other.size_ * 3)`, the arrays are made and every pair of `other` is inserted. -/
def copy_ctor (other : HashMap K V) : Option (HashMap K V) :=
  other.elem_list_.foldlM (fun s nd => (insert s nd.first nd.second).map Prod.fst)
    (make_new_arrays
      ⟨other.hasher_, fun _ => 0, [], fun _ => Iter.singular, max 11 (other.size_ * 3), 0, 0⟩)

/-- A copy construction as a transition: the new object and the state of `other` after the call.
The argument is a reference to `const`, so `other` after the call is `other` before it. -/
def copy_call (other : HashMap K V) : Option (HashMap K V × HashMap K V) :=
  (copy_ctor other).map (fun m => (m, other))

/-- Lines 176-183 of `operator=`, run after `clear()`, for a right-hand side `other` that is a
different object. -/
def assign_body (self other : HashMap K V) : Option (HashMap K V) :=
  other.elem_list_.foldlM (fun s nd => (insert s nd.first nd.second).map Prod.fst)
    (make_new_arrays { self with hasher_ := other.hasher_, cap_ := max 11 (other.size_ * 3) })

/-- Method `operator=` with a right-hand side that is a different object. -/
def assign (self other : HashMap K V) : Option (HashMap K V) :=
  (clear self).bind (fun s => assign_body s other)

/-- Method `operator=` with the object itself as right-hand side (`m = m`): `other.size_` and
`other.begin()` are read after `clear()`.  If the list were not empty then, the loop would walk
a list that grows by one node at each step and would not end. -/
def assign_self (self : HashMap K V) : Option (HashMap K V) :=
  (clear self).bind (fun s =>
    match s.elem_list_ with
    | [] => some (make_new_arrays { s with cap_ := max 11 (s.size_ * 3) })
    | _ :: _ => none)

/-- Displacement that a node with key `key` has when stored in slot `q`: one more than the number
of probe steps from its ideal slot `hasher_(key) % cap_` to `q`. -/
def displacement (m : HashMap K V) (key : K) (q : Nat) : Nat :=
  (q + m.cap_ - m.hasher_ key % m.cap_) % m.cap_ + 1

/-- States obtained from a default-constructed map by calls of the public mutating methods. -/
inductive Reachable [Inhabited V] : HashMap K V → Prop where
  | init (hasher : K → Nat) : Reachable (HashMap.mk_default hasher)
  | insert {m m1 : HashMap K V} {p : Nat} (key : K) (val : V) :
      Reachable m → insert m key val = some (m1, p) → Reachable m1
  | erase {m m1 : HashMap K V} (key : K) :
      Reachable m → erase m key = some m1 → Reachable m1
  | index {m m1 : HashMap K V} {nd : Node K V} (key : K) :
      Reachable m → index m key = some (m1, nd) → Reachable m1
  | clear {m m1 : HashMap K V} :
      Reachable m → clear m = some m1 → Reachable m1

/-- States of the maps built by the constructors (default, range or list, and, when `copies` is
true, copy construction and assignment) and changed by calls of the public mutating methods. -/
inductive Built [Inhabited V] (copies : Bool) : HashMap K V → Prop where
  | init (hasher : K → Nat) : Built copies (HashMap.mk_default hasher)
  | range (hasher : K → Nat) (l : List (K × V)) {m : HashMap K V} :
      HashMap.mk_range hasher l = some m → Built copies m
  | copy {other m : HashMap K V} :
      copies = true → Built copies other → copy_ctor other = some m → Built copies m
  | assign {self other m : HashMap K V} :
      copies = true → Built copies self → Built copies other → assign self other = some m →
      Built copies m
  | assign_self {self m : HashMap K V} :
      copies = true → Built copies self → assign_self self = some m → Built copies m
  | insert {m m1 : HashMap K V} {p : Nat} (key : K) (val : V) :
      Built copies m → insert m key val = some (m1, p) → Built copies m1
  | erase {m m1 : HashMap K V} (key : K) :
      Built copies m → erase m key = some m1 → Built copies m1
  | index {m m1 : HashMap K V} {nd : Node K V} (key : K) :
      Built copies m → index m key = some (m1, nd) → Built copies m1
  | clear {m m1 : HashMap K V} :
      Built copies m → clear m = some m1 → Built copies m1

end ops

/-! ## Predicates used by the proofs -/

/-- Number of forward steps from `pos` to `e` around a table of `cap` slots. -/
def dist (cap pos e : Nat) : Nat := if pos ≤ e then e - pos else e + cap - pos

/-- Invariants of the probe table against the backing sequence `el`: every occupied slot
references a node of `el` and its counter is the exact displacement (I1), distinct occupied slots
reference distinct nodes, and the counters grow by at most one from a slot to its successor (I2). -/
structure TableInv (h : K → Nat) (cap : Nat) (el : List (Node K V))
    (mc : Nat → Nat) (li : Nat → Iter) : Prop where
  slot : ∀ p, p < cap → mc p ≠ 0 →
    ∃ nd, nd ∈ el ∧ li p = Iter.node nd.id ∧ p = (h nd.first + (mc p - 1)) % cap
  inj : ∀ p q, p < cap → q < cap → mc p ≠ 0 → mc q ≠ 0 → li p = li q → p = q
  rh : ∀ i, i < cap → mc (wrap_inc cap i) ≤ mc i + 1

/-- Every node of `el` is referenced by an occupied slot. -/
def Covered (cap : Nat) (el : List (Node K V)) (mc : Nat → Nat) (li : Nat → Iter) : Prop :=
  ∀ nd, nd ∈ el → ∃ p, p < cap ∧ mc p ≠ 0 ∧ li p = Iter.node nd.id

/-- Representation invariant of the container (without the load factor). -/
structure Inv (m : HashMap K V) : Prop where
  cap_pos : 0 < m.cap_
  size_eq : m.size_ = m.elem_list_.length
  nodup : (m.elem_list_.map Node.id).Nodup
  fresh : ∀ nd, nd ∈ m.elem_list_ → nd.id < m.fresh_
  table : TableInv m.hasher_ m.cap_ m.elem_list_ m.move_cnt_ m.list_iters_
  cover : Covered m.cap_ m.elem_list_ m.move_cnt_ m.list_iters_

/-- Representation invariant together with the load factor `2 * size_ ≤ cap_`. -/
def WF (m : HashMap K V) : Prop := Inv m ∧ 2 * m.size_ ≤ m.cap_

/-- The scan of `find_pos` stops at slot `p`: it is empty, or its node carries the key. -/
def StopAt (m : HashMap K V) (key : K) (p : Nat) : Prop :=
  m.move_cnt_ p = 0 ∨ ∃ nd, deref m.elem_list_ (m.list_iters_ p) = some nd ∧ nd.first = key

/-- Loop invariant of the probe loop of `insert`: the table is consistent, the candidate `now`
is a node of `el` that no slot references, it has travelled `step - 1` slots from its ideal slot
to `pos`, and it is the only node that may lack a slot. -/
structure InsState (h : K → Nat) (cap : Nat) (el : List (Node K V)) (mc : Nat → Nat)
    (li : Nat → Iter) (pos : Nat) (now : Iter) (step : Nat) : Prop where
  pos_lt : pos < cap
  step_pos : 1 ≤ step
  table : TableInv h cap el mc li
  cand : ∃ x, x ∈ el ∧ now = Iter.node x.id ∧ pos = (h x.first + (step - 1)) % cap
  cand_new : ∀ p, p < cap → mc p ≠ 0 → li p ≠ now
  cover : ∀ nd, nd ∈ el →
    now = Iter.node nd.id ∨ ∃ p, p < cap ∧ mc p ≠ 0 ∧ li p = Iter.node nd.id
  prev : ∀ i, i < cap → wrap_inc cap i = pos → step ≤ mc i + 1

/-- Loop invariant of the backward shift: slot `pos` is the hole, the table is consistent
everywhere, and the ordering of the counters holds at every slot but the hole, across which the
counters grow by at most two. -/
structure EraState (h : K → Nat) (cap : Nat) (el : List (Node K V)) (mc : Nat → Nat)
    (li : Nat → Iter) (pos : Nat) : Prop where
  pos_lt : pos < cap
  hole : mc pos = 0
  slot : ∀ p, p < cap → mc p ≠ 0 →
    ∃ nd, nd ∈ el ∧ li p = Iter.node nd.id ∧ p = (h nd.first + (mc p - 1)) % cap
  inj : ∀ p q, p < cap → q < cap → mc p ≠ 0 → mc q ≠ 0 → li p = li q → p = q
  rh : ∀ i, i < cap → i ≠ pos → mc (wrap_inc cap i) ≤ mc i + 1
  gap : ∀ i, i < cap → wrap_inc cap i = pos → mc (wrap_inc cap pos) ≤ mc i + 2
  cover : Covered cap el mc li

/-! ## Concrete maps -/

/-- Identity hash on `Nat`, used by the concrete maps below. -/
def demo_hash : Nat → Nat := fun k => k

/-- Default-constructed map over the identity hash. -/
def demo_empty : HashMap Nat Nat := HashMap.mk_default demo_hash

/-- State after `insert(k, v)` on `m`. -/
def demo_step (m : HashMap Nat Nat) (k v : Nat) : HashMap Nat Nat :=
  ((insert m k v).map Prod.fst).getD m

/-- Map after `insert(10, 1)`. -/
def demo_a : HashMap Nat Nat := demo_step demo_empty 10 1

/-- Map after `insert(10, 1)`, `insert(21, 2)`: both keys hash to slot 10 of 11. -/
def demo_ab : HashMap Nat Nat := demo_step demo_a 21 2

/-- Map after `insert(10, 1)`, `insert(21, 2)`, `insert(32, 3)`. -/
def demo_abc : HashMap Nat Nat := demo_step demo_ab 32 3

/-- Map after `insert(10, 1)`, `insert(10, 5)`: the key 10 occurs twice. -/
def demo_dup : HashMap Nat Nat := demo_step demo_a 10 5

/-- Map after `insert(0, 7)`, `insert(1, 8)`, `insert(1, 9)`, `insert(5, 5)`: the key 1 occurs
twice, in slots 1 and 2. -/
def demo_four : HashMap Nat Nat :=
  (insert_all demo_empty [(0, 7), (1, 8), (1, 9), (5, 5)]).getD demo_empty

/-- Copy of `demo_four` made by the copy constructor. -/
def demo_copy : HashMap Nat Nat := (copy_ctor demo_four).getD demo_four

/-- Map holding five entries at capacity 11: the next `insert` rebuilds. -/
def demo_five : HashMap Nat Nat :=
  (insert_all demo_empty [(0, 0), (11, 1), (22, 2), (33, 3), (44, 4)]).getD demo_empty

/-! ## Index arithmetic -/

theorem wrap_inc_lt {cap pos : Nat} (h : pos < cap) : wrap_inc cap pos < cap := by
  unfold wrap_inc; split <;> omega

theorem wrap_inc_mod {cap : Nat} (hc : 0 < cap) (a : Nat) :
    wrap_inc cap (a % cap) = (a + 1) % cap := by
  unfold wrap_inc
  have h1 : a % cap < cap := Nat.mod_lt _ hc
  rw [← Nat.mod_add_mod a cap 1]
  by_cases h : a % cap + 1 = cap
  · rw [if_pos h, h, Nat.mod_self]
  · rw [if_neg h, Nat.mod_eq_of_lt (show a % cap + 1 < cap by omega)]

theorem wrap_inc_of_lt {cap pos : Nat} (h : pos < cap) :
    wrap_inc cap pos = (pos + 1) % cap := by
  have := wrap_inc_mod (Nat.lt_of_le_of_lt (Nat.zero_le _) h) pos
  rwa [Nat.mod_eq_of_lt h] at this

theorem wrap_inc_inj {cap i j : Nat} (h : wrap_inc cap i = wrap_inc cap j) : i = j := by
  unfold wrap_inc at h
  split at h <;> split at h <;> omega

theorem dist_lt {cap pos e : Nat} (hp : pos < cap) (he : e < cap) : dist cap pos e < cap := by
  unfold dist; split <;> omega

theorem dist_wrap_inc {cap pos e : Nat} (hp : pos < cap) (he : e < cap) (hne : pos ≠ e) :
    dist cap (wrap_inc cap pos) e + 1 = dist cap pos e := by
  unfold dist wrap_inc
  split <;> split <;> split <;> omega

theorem add_dist_mod {cap pos e : Nat} (hp : pos < cap) (he : e < cap) :
    (pos + dist cap pos e) % cap = e := by
  unfold dist
  split
  · rw [show pos + (e - pos) = e by omega, Nat.mod_eq_of_lt he]
  · rw [show pos + (e + cap - pos) = e + cap by omega, Nat.add_mod_right, Nat.mod_eq_of_lt he]

/-! ## Dereferencing -/

theorem deref_some {el : List (Node K V)} {it : Iter} {nd : Node K V}
    (h : deref el it = some nd) : nd ∈ el ∧ it = Iter.node nd.id := by
  cases it with
  | singular => simp [deref] at h
  | past_end => simp [deref] at h
  | node i =>
    simp only [deref] at h
    refine ⟨List.mem_of_find?_eq_some h, ?_⟩
    have := List.find?_some h
    simp at this
    rw [this]

theorem deref_of_mem {el : List (Node K V)} (hnd : (el.map Node.id).Nodup) {nd : Node K V}
    (h : nd ∈ el) : deref el (Iter.node nd.id) = some nd := by
  induction el with
  | nil => simp at h
  | cons a t ih =>
    simp only [List.map_cons, List.nodup_cons] at hnd
    simp only [deref, List.find?_cons]
    by_cases ha : a.id = nd.id
    · simp only [ha, beq_self_eq_true]
      rcases List.mem_cons.1 h with h1 | h1
      · rw [h1]
      · exact absurd (List.mem_map_of_mem Node.id h1) (ha ▸ hnd.1)
    · have hb : (a.id == nd.id) = false := by simpa using ha
      simp only [hb]
      rcases List.mem_cons.1 h with h1 | h1
      · exact absurd (h1 ▸ rfl) ha
      · exact ih hnd.2 h1

/-! ## Invariants -/

theorem TableInv.chain {h : K → Nat} {cap : Nat} {el : List (Node K V)} {mc : Nat → Nat}
    {li : Nat → Iter} (t : TableInv h cap el mc li) (hc : 0 < cap) (x n : Nat) :
    mc ((x + n) % cap) ≤ mc (x % cap) + n := by
  induction n with
  | zero => simp
  | succ n ih =>
    have h1 := t.rh ((x + n) % cap) (Nat.mod_lt _ hc)
    rw [wrap_inc_mod hc] at h1
    rw [← Nat.add_assoc]
    omega

/-- A table with fewer nodes than slots has an empty slot. -/
theorem table_free_slot {h : K → Nat} {cap : Nat} {el : List (Node K V)} {mc : Nat → Nat}
    {li : Nat → Iter} (t : TableInv h cap el mc li) (hlt : el.length < cap) :
    ∃ e, e < cap ∧ mc e = 0 := by
  by_contra hne
  push_neg at hne
  have hcard : (Finset.range cap).card ≤ ((el.map (fun nd => Iter.node nd.id)).toFinset).card := by
    apply Finset.card_le_card_of_injOn li
    · intro p hp
      have hp1 : p < cap := by simpa using hp
      obtain ⟨nd, hnd, hli, _⟩ := t.slot p hp1 (hne p hp1)
      simp only [Finset.coe_sort_coe, Finset.mem_coe, List.mem_toFinset, List.mem_map]
      exact ⟨nd, hnd, hli.symm⟩
    · intro p hp q hq hpq
      have hp1 : p < cap := by simpa using hp
      have hq1 : q < cap := by simpa using hq
      exact t.inj p q hp1 hq1 (hne p hp1) (hne q hq1) hpq
  have h2 := List.toFinset_card_le (el.map (fun nd => Iter.node nd.id))
  simp at hcard h2
  omega

theorem eq_of_id_eq {el : List (Node K V)} (hnd : (el.map Node.id).Nodup) {a b : Node K V}
    (ha : a ∈ el) (hb : b ∈ el) (h : a.id = b.id) : a = b := by
  have h1 := deref_of_mem hnd ha
  have h2 := deref_of_mem hnd hb
  rw [h, h2] at h1
  exact (Option.some.inj h1).symm

theorem Inv.deref_slot {m : HashMap K V} (hI : Inv m) {p : Nat} (hp : p < m.cap_)
    (ho : m.move_cnt_ p ≠ 0) :
    ∃ nd, nd ∈ m.elem_list_ ∧ m.list_iters_ p = Iter.node nd.id ∧
      deref m.elem_list_ (m.list_iters_ p) = some nd ∧
      p = (m.hasher_ nd.first + (m.move_cnt_ p - 1)) % m.cap_ := by
  obtain ⟨nd, hnd, hli, hpos⟩ := hI.table.slot p hp ho
  exact ⟨nd, hnd, hli, by rw [hli]; exact deref_of_mem hI.nodup hnd, hpos⟩

theorem Inv.free_slot {m : HashMap K V} (hI : Inv m) (hlt : m.size_ < m.cap_) :
    ∃ e, e < m.cap_ ∧ m.move_cnt_ e = 0 :=
  table_free_slot hI.table (by rw [← hI.size_eq]; exact hlt)

/-! ## Lookup -/

section lookup
variable [DecidableEq K]

theorem find_pos_loop_scan {m : HashMap K V} (hI : Inv m) (key : K) :
    ∀ (n a fuel : Nat), n < fuel →
      (∀ i, i < n → ¬ StopAt m key ((a + i) % m.cap_)) →
      StopAt m key ((a + n) % m.cap_) →
      find_pos_loop m key fuel (a % m.cap_) = some ((a + n) % m.cap_) := by
  intro n
  induction n with
  | zero =>
    intro a fuel hf _ hstop
    obtain ⟨fuel, rfl⟩ : ∃ f, fuel = f + 1 := ⟨fuel - 1, by omega⟩
    simp only [Nat.add_zero] at hstop ⊢
    unfold find_pos_loop
    by_cases h0 : m.move_cnt_ (a % m.cap_) = 0
    · simp [h0]
    · rcases hstop with h | ⟨nd, hd, hk⟩
      · exact absurd h h0
      · simp [h0, hd, hk]
  | succ n ih =>
    intro a fuel hf hnot hstop
    obtain ⟨fuel, rfl⟩ : ∃ f, fuel = f + 1 := ⟨fuel - 1, by omega⟩
    have h0 := hnot 0 (Nat.succ_pos n)
    simp only [Nat.add_zero, StopAt, not_or, not_exists, not_and] at h0
    obtain ⟨nd, _, _, hd, _⟩ := hI.deref_slot (Nat.mod_lt a hI.cap_pos) h0.1
    have hk := h0.2 nd hd
    unfold find_pos_loop
    simp only [ne_eq, h0.1, not_false_eq_true, if_true, hd, hk, if_false]
    rw [wrap_inc_mod hI.cap_pos]
    have := ih (a + 1) fuel (by omega)
      (fun i hi => by
        have := hnot (i + 1) (by omega)
        rwa [show a + (i + 1) = a + 1 + i by omega] at this)
      (by rwa [show a + (n + 1) = a + 1 + n by omega] at hstop)
    rw [this, show a + (n + 1) = a + 1 + n by omega]

/-- Result of `find_pos` on a state with the invariants and a free slot. -/
theorem find_pos_spec {m : HashMap K V} (hI : Inv m) (hlt : m.size_ < m.cap_) (key : K) :
    ∃ p, find_pos m key = some p ∧ p < m.cap_ ∧ StopAt m key p ∧
      ((∃ nd, nd ∈ m.elem_list_ ∧ nd.first = key) → m.move_cnt_ p ≠ 0) := by
  classical
  have hc := hI.cap_pos
  obtain ⟨e, he, hem⟩ := hI.free_slot hlt
  set a := m.hasher_ key with ha
  have hex : ∃ i, StopAt m key ((a + i) % m.cap_) := by
    refine ⟨dist m.cap_ (a % m.cap_) e, Or.inl ?_⟩
    rw [← Nat.mod_add_mod, add_dist_mod (Nat.mod_lt _ hc) he]
    exact hem
  have hle : Nat.find hex ≤ dist m.cap_ (a % m.cap_) e := by
    apply Nat.find_min' hex
    refine Or.inl ?_
    rw [← Nat.mod_add_mod, add_dist_mod (Nat.mod_lt _ hc) he]
    exact hem
  have hlt2 : Nat.find hex < m.cap_ := lt_of_le_of_lt hle (dist_lt (Nat.mod_lt _ hc) he)
  refine ⟨(a + Nat.find hex) % m.cap_, ?_, Nat.mod_lt _ hc, Nat.find_spec hex, ?_⟩
  · exact find_pos_loop_scan hI key (Nat.find hex) a m.cap_ hlt2
      (fun i hi => Nat.find_min hex hi) (Nat.find_spec hex)
  · rintro ⟨nd, hnd, hk⟩
    obtain ⟨q, hq, hqo, hqi⟩ := hI.cover nd hnd
    obtain ⟨nd2, hnd2, hli2, hd2, hpos2⟩ := hI.deref_slot hq hqo
    have hid : nd2.id = nd.id := by
      rw [hqi] at hli2; injection hli2 with h; exact h.symm
    have heq : nd2 = nd := eq_of_id_eq hI.nodup hnd2 hnd hid
    subst heq
    rw [hk, ← ha] at hpos2
    have hstopq : StopAt m key ((a + (m.move_cnt_ q - 1)) % m.cap_) := by
      rw [← hpos2]; exact Or.inr ⟨nd2, hd2, hk⟩
    have hn := Nat.find_min' hex hstopq
    have hch := hI.table.chain hc (a + Nat.find hex) (m.move_cnt_ q - 1 - Nat.find hex)
    rw [show a + Nat.find hex + (m.move_cnt_ q - 1 - Nat.find hex) = a + (m.move_cnt_ q - 1) by omega,
      ← hpos2] at hch
    omega

end lookup

/-! ## The probe loop of `insert` -/

section insert_loop
variable {h : K → Nat} {cap : Nat} {el : List (Node K V)} {mc : Nat → Nat} {li : Nat → Iter}
  {pos : Nat} {now : Iter} {step : Nat}

theorem InsState.place (s : InsState h cap el mc li pos now step) (hlt : mc pos < step) :
    TableInv h cap el (Function.update mc pos step) (Function.update li pos now) := by
  refine ⟨?_, ?_, ?_⟩
  · intro p hp ho
    by_cases hpp : p = pos
    · subst hpp
      obtain ⟨x, hx, hnow, hpos⟩ := s.cand
      exact ⟨x, hx, by simp [hnow], by simpa using hpos⟩
    · simp only [Function.update_noteq hpp] at ho ⊢
      exact s.table.slot p hp ho
  · intro p q hp hq hop hoq hpq
    by_cases hpp : p = pos <;> by_cases hqq : q = pos
    · rw [hpp, hqq]
    · subst hpp
      simp only [Function.update_same, Function.update_noteq hqq] at hoq hpq
      exact absurd hpq.symm (s.cand_new q hq hoq)
    · subst hqq
      simp only [Function.update_same, Function.update_noteq hpp] at hop hpq
      exact absurd hpq (s.cand_new p hp hop)
    · simp only [Function.update_noteq hpp, Function.update_noteq hqq] at hop hoq hpq
      exact s.table.inj p q hp hq hop hoq hpq
  · intro i hi
    have hrh := s.table.rh i hi
    by_cases hw : wrap_inc cap i = pos
    · rw [hw, Function.update_same]
      by_cases hii : i = pos
      · rw [hii, Function.update_same]; omega
      · rw [Function.update_noteq hii]
        exact s.prev i hi hw
    · rw [Function.update_noteq hw]
      by_cases hii : i = pos
      · rw [hii, Function.update_same]; rw [hii] at hrh; omega
      · rw [Function.update_noteq hii]; exact hrh

theorem InsState.done (s : InsState h cap el mc li pos now step) (h0 : mc pos = 0) :
    Covered cap el (Function.update mc pos step) (Function.update li pos now) := by
  intro nd hnd
  rcases s.cover nd hnd with hn | ⟨p, hp, hpo, hpl⟩
  · refine ⟨pos, s.pos_lt, ?_, ?_⟩
    · rw [Function.update_same]; have := s.step_pos; omega
    · rw [Function.update_same]; exact hn
  · have hne : p ≠ pos := fun hh => hpo (hh ▸ h0)
    exact ⟨p, hp, by rwa [Function.update_noteq hne], by rwa [Function.update_noteq hne]⟩

theorem InsState.swap (s : InsState h cap el mc li pos now step) (hlt : mc pos < step)
    (h0 : mc pos ≠ 0) :
    InsState h cap el (Function.update mc pos step) (Function.update li pos now)
      (wrap_inc cap pos) (li pos) (mc pos + 1) := by
  have hc : 0 < cap := Nat.lt_of_le_of_lt (Nat.zero_le _) s.pos_lt
  refine ⟨wrap_inc_lt s.pos_lt, by omega, s.place hlt, ?_, ?_, ?_, ?_⟩
  · obtain ⟨y, hy, hli, hpos⟩ := s.table.slot pos s.pos_lt h0
    refine ⟨y, hy, hli, ?_⟩
    have hw := wrap_inc_mod hc (h y.first + (mc pos - 1))
    rw [← hpos] at hw
    rw [hw]
    congr 1
    omega
  · intro p hp hpo
    by_cases hpp : p = pos
    · subst hpp
      rw [Function.update_same]
      exact fun hh => s.cand_new p hp h0 hh.symm
    · rw [Function.update_noteq hpp] at hpo ⊢
      exact fun hh => hpp (s.table.inj p pos hp s.pos_lt hpo h0 hh)
  · intro nd hnd
    rcases s.cover nd hnd with hn | ⟨p, hp, hpo, hpl⟩
    · refine Or.inr ⟨pos, s.pos_lt, ?_, ?_⟩
      · rw [Function.update_same]; have := s.step_pos; omega
      · rw [Function.update_same]; exact hn
    · by_cases hpp : p = pos
      · subst hpp; exact Or.inl hpl
      · exact Or.inr ⟨p, hp, by rwa [Function.update_noteq hpp],
          by rwa [Function.update_noteq hpp]⟩
  · intro i _ hw
    have := wrap_inc_inj hw
    subst this
    rw [Function.update_same]
    omega

theorem InsState.skip (s : InsState h cap el mc li pos now step) (hge : ¬ mc pos < step) :
    InsState h cap el mc li (wrap_inc cap pos) now (step + 1) := by
  have hc : 0 < cap := Nat.lt_of_le_of_lt (Nat.zero_le _) s.pos_lt
  refine ⟨wrap_inc_lt s.pos_lt, by omega, s.table, ?_, s.cand_new, s.cover, ?_⟩
  · obtain ⟨x, hx, hnow, hpos⟩ := s.cand
    refine ⟨x, hx, hnow, ?_⟩
    have hw := wrap_inc_mod hc (h x.first + (step - 1))
    rw [← hpos] at hw
    rw [hw]
    congr 1
    have := s.step_pos
    omega
  · intro i _ hw
    have := wrap_inc_inj hw
    subst this
    omega

/-- The probe loop stores the candidate within `dist cap pos e + 1` iterations, where `e` is
any empty slot, and leaves a consistent table that references every node. -/
theorem insert_loop_spec :
    ∀ (fuel : Nat) (mc : Nat → Nat) (li : Nat → Iter) (pos : Nat) (now : Iter) (step e : Nat),
      InsState h cap el mc li pos now step → e < cap → mc e = 0 → dist cap pos e < fuel →
      ∃ mc1 li1, insert_loop cap fuel mc li pos now step = some (mc1, li1) ∧
        TableInv h cap el mc1 li1 ∧ Covered cap el mc1 li1 := by
  intro fuel
  induction fuel with
  | zero => intro _ _ _ _ _ _ _ _ _ hd; omega
  | succ fuel ih =>
    intro mc li pos now step e s he hem hd
    unfold insert_loop
    by_cases hlt : mc pos < step
    · by_cases h0 : mc pos = 0
      · exact ⟨_, _, by rw [if_pos hlt, if_pos h0], s.place hlt, s.done h0⟩
      · have hne : pos ≠ e := fun hh => h0 (hh ▸ hem)
        have hdd := dist_wrap_inc s.pos_lt he hne
        obtain ⟨mc1, li1, hr, ht, hcv⟩ := ih _ _ _ _ _ e (s.swap hlt h0) he
          (by rw [Function.update_noteq (Ne.symm hne)]; exact hem) (by omega)
        exact ⟨mc1, li1, by rw [if_pos hlt, if_neg h0]; exact hr, ht, hcv⟩
    · have hne : pos ≠ e := fun hh => by
        have := s.step_pos
        rw [hh] at hlt
        omega
      have hdd := dist_wrap_inc s.pos_lt he hne
      obtain ⟨mc1, li1, hr, ht, hcv⟩ := ih _ _ _ _ _ e (s.skip hlt) he hem (by omega)
      exact ⟨mc1, li1, by rw [if_neg hlt]; exact hr, ht, hcv⟩

end insert_loop

/-! ## `insert` without the rebuild -/

theorem TableInv.mono {h : K → Nat} {cap : Nat} {el el2 : List (Node K V)} {mc : Nat → Nat}
    {li : Nat → Iter} (t : TableInv h cap el mc li) (hsub : ∀ nd, nd ∈ el → nd ∈ el2) :
    TableInv h cap el2 mc li :=
  ⟨fun p hp ho => by
      obtain ⟨nd, hnd, hr⟩ := t.slot p hp ho
      exact ⟨nd, hsub nd hnd, hr⟩,
    t.inj, t.rh⟩

/-- The part of `insert` before the load check keeps the invariants and appends one node. -/
theorem insert_core_spec {m : HashMap K V} (hI : Inv m) (hlt : m.size_ < m.cap_)
    (key : K) (val : V) :
    ∃ m1, insert_core m key val = some m1 ∧ Inv m1 ∧
      m1.elem_list_ = m.elem_list_ ++ [⟨m.fresh_, key, val⟩] ∧
      m1.size_ = m.size_ + 1 ∧ m1.cap_ = m.cap_ ∧ m1.hasher_ = m.hasher_ ∧
      m1.fresh_ = m.fresh_ + 1 := by
  have hc := hI.cap_pos
  obtain ⟨e, he, hem⟩ := hI.free_slot hlt
  have hs : InsState m.hasher_ m.cap_ (m.elem_list_ ++ [⟨m.fresh_, key, val⟩]) m.move_cnt_
      m.list_iters_ (m.hasher_ key % m.cap_) (Iter.node m.fresh_) 1 := by
    refine ⟨Nat.mod_lt _ hc, le_refl _, hI.table.mono (fun nd hnd => by simp [hnd]),
      ⟨⟨m.fresh_, key, val⟩, by simp, rfl, by simp⟩, ?_, ?_, fun i _ _ => by omega⟩
    · intro p hp ho hli
      obtain ⟨nd, hnd, hli2, _⟩ := hI.table.slot p hp ho
      rw [hli2] at hli
      injection hli with hid
      have := hI.fresh nd hnd
      omega
    · intro nd hnd
      rcases List.mem_append.1 hnd with h1 | h1
      · exact Or.inr (hI.cover nd h1)
      · simp only [List.mem_singleton] at h1
        exact Or.inl (by rw [h1])
  obtain ⟨mc1, li1, hr, ht, hcv⟩ := insert_loop_spec m.cap_ _ _ _ _ _ e hs he hem
    (dist_lt (Nat.mod_lt _ hc) he)
  refine ⟨{ m with
      move_cnt_ := mc1, list_iters_ := li1,
      elem_list_ := m.elem_list_ ++ [⟨m.fresh_, key, val⟩],
      size_ := m.size_ + 1, fresh_ := m.fresh_ + 1 },
    by simp only [insert_core, hr], ?_, rfl, rfl, rfl, rfl, rfl⟩
  refine ⟨hc, ?_, ?_, ?_, ht, hcv⟩
  · simp [hI.size_eq]
  · simp only [List.map_append, List.map_cons, List.map_nil]
    rw [List.nodup_append]
    refine ⟨hI.nodup, List.nodup_singleton _, ?_⟩
    intro a ha hb
    simp only [List.mem_singleton] at hb
    obtain ⟨nd, hnd, hid⟩ := List.mem_map.1 ha
    have := hI.fresh nd hnd
    omega
  · intro nd hnd
    simp only [List.mem_append, List.mem_singleton] at hnd
    rcases hnd with h1 | h1
    · have := hI.fresh nd h1
      show nd.id < m.fresh_ + 1
      omega
    · rw [h1]
      show m.fresh_ < m.fresh_ + 1
      omega

/-! ## The capacity search of `rebuild` -/

theorem is_prime_loop_spec (num : Nat) (hnum : 2 ≤ num) :
    ∀ (fuel i : Nat), 2 ≤ i → i ≤ num + 1 → num + 2 ≤ fuel + i →
      (∀ j, 2 ≤ j → j < i → ¬ j ∣ num) →
      is_prime_loop num fuel i = some (decide (Nat.Prime num)) := by
  intro fuel
  induction fuel with
  | zero => intro i _ _ _ _; omega
  | succ fuel ih =>
    intro i h2 hle hf hdiv
    unfold is_prime_loop
    by_cases hsq : i * i ≤ num
    · rw [if_pos hsq]
      have hilt : i < num := by nlinarith
      by_cases hm : num % i = 0
      · rw [if_pos hm]
        have hnp : ¬ Nat.Prime num := by
          intro hp
          rcases hp.eq_one_or_self_of_dvd i (Nat.dvd_of_mod_eq_zero hm) with h1 | h1 <;> omega
        simp [hnp]
      · rw [if_neg hm]
        apply ih (i + 1) (by omega) (by omega) (by omega)
        intro j hj2 hji
        by_cases hj : j = i
        · subst hj
          exact fun hd => hm (Nat.mod_eq_zero_of_dvd hd)
        · exact hdiv j hj2 (by omega)
    · rw [if_neg hsq]
      have hp : Nat.Prime num := by
        rw [Nat.prime_def_le_sqrt]
        refine ⟨hnum, fun j hj2 hjs => hdiv j hj2 ?_⟩
        rw [Nat.le_sqrt] at hjs
        by_contra hji
        have : i * i ≤ j * j := Nat.mul_le_mul (by omega) (by omega)
        omega
      simp [hp]

/-- Method `is_prime` decides primality of every number from 2 on. -/
theorem is_prime_spec (num : Nat) (hnum : 2 ≤ num) :
    is_prime num = some (decide (Nat.Prime num)) :=
  is_prime_loop_spec num hnum (num + 1) 2 (le_refl _) (by omega) (by omega)
    (fun j h1 h2 => by omega)

theorem grow_cap_loop_spec :
    ∀ (fuel c : Nat), 2 ≤ c →
      (∃ p, Nat.Prime p ∧ c ≤ p ∧ p % 2 = c % 2 ∧ p < c + 2 * fuel) →
      ∃ c1, grow_cap_loop fuel c = some c1 ∧ Nat.Prime c1 ∧ c ≤ c1 ∧ c1 % 2 = c % 2 ∧
        ∀ q, c ≤ q → q < c1 → q % 2 = c % 2 → ¬ Nat.Prime q := by
  intro fuel
  induction fuel with
  | zero => rintro c _ ⟨p, _, h1, _, h2⟩; omega
  | succ fuel ih =>
    rintro c hc ⟨p, hp, hcp, hpar, hlt⟩
    unfold grow_cap_loop
    rw [is_prime_spec c hc]
    by_cases hcp2 : Nat.Prime c
    · simp only [hcp2, decide_True]
      exact ⟨c, rfl, hcp2, le_refl _, rfl, fun q h1 h2 => by omega⟩
    · simp only [hcp2, decide_False]
      have hne : p ≠ c := fun hh => hcp2 (hh ▸ hp)
      obtain ⟨c1, hr, hp1, hle, hpar1, hmin⟩ := ih (c + 2) (by omega)
        ⟨p, hp, by omega, by omega, by omega⟩
      refine ⟨c1, hr, hp1, by omega, by omega, fun q h1 h2 h3 => ?_⟩
      by_cases hq : q = c
      · rw [hq]; exact hcp2
      · exact hmin q (by omega) h2 (by omega)

/-- The capacity search of `rebuild` returns: the next capacities after `cap ≥ 1`. -/
theorem grow_cap_rebuild (cap : Nat) (hc : 0 < cap) :
    ∃ c1, grow_cap_loop (cap + 1) (cap * 2 + 1) = some c1 ∧ Nat.Prime c1 ∧ cap * 2 + 1 ≤ c1 ∧
      c1 % 2 = 1 ∧ ∀ q, cap * 2 + 1 ≤ q → q < c1 → ¬ Nat.Prime q := by
  obtain ⟨p, hp, h1, h2⟩ := Nat.exists_prime_lt_and_le_two_mul (2 * cap) (by omega)
  have hodd : p % 2 = 1 := by
    rcases hp.eq_two_or_odd with h | h
    · omega
    · exact h
  obtain ⟨c1, hr, hp1, hle, hpar, hmin⟩ := grow_cap_loop_spec (cap + 1) (cap * 2 + 1) (by omega)
    ⟨p, hp, by omega, by omega, by omega⟩
  refine ⟨c1, hr, hp1, hle, by omega, fun q hq1 hq2 hqp => ?_⟩
  rcases hqp.eq_two_or_odd with h | h
  · omega
  · exact hmin q hq1 hq2 (by omega) hqp

/-! ## `insert` and `rebuild` -/

theorem WF.size_lt {m : HashMap K V} (hW : WF m) : m.size_ < m.cap_ := by
  have h1 := hW.1.cap_pos
  have h2 := hW.2
  omega

section insert
variable [DecidableEq K]

theorem insert_aux_succ (d : Nat) (m : HashMap K V) (key : K) (val : V) :
    insert_aux (d + 1) m key val =
      match insert_core m key val with
      | none => none
      | some m1 =>
        match (if m1.size_ * 2 > m1.cap_ then
            rebuild_with (fun s k v => insert_aux d s k v) m1 else some m1) with
        | none => none
        | some m2 => (find_pos m2 key).map (fun p => (m2, p)) := rfl

/-- An `insert` that stays within the load factor does not rebuild. -/
theorem insert_aux_small {m : HashMap K V} (hI : Inv m) (hld : 2 * (m.size_ + 1) ≤ m.cap_)
    (key : K) (val : V) (d : Nat) :
    ∃ m1 p, insert_aux (d + 1) m key val = some (m1, p) ∧ WF m1 ∧
      m1.elem_list_ = m.elem_list_ ++ [⟨m.fresh_, key, val⟩] ∧
      m1.size_ = m.size_ + 1 ∧ m1.cap_ = m.cap_ ∧ m1.hasher_ = m.hasher_ ∧
      find_pos m1 key = some p := by
  obtain ⟨m1, hcore, hI1, hel, hsz, hcap, hh, _⟩ := insert_core_spec hI (by omega) key val
  have hW1 : WF m1 := ⟨hI1, by rw [hsz, hcap]; exact hld⟩
  obtain ⟨p, hfp, _⟩ := find_pos_spec hI1 hW1.size_lt key
  have hno : ¬ (m1.size_ * 2 > m1.cap_) := by rw [hsz, hcap]; omega
  refine ⟨m1, p, ?_, hW1, hel, hsz, hcap, hh, hfp⟩
  rw [insert_aux_succ]
  simp only [hcore, hno, if_false, hfp, Option.map_some']

/-- The reinsertion loop of `rebuild`, run on a table large enough for all the entries. -/
theorem reinsert_spec (d : Nat) :
    ∀ (elems : List (Node K V)) (s : HashMap K V), Inv s →
      2 * (s.size_ + elems.length) ≤ s.cap_ →
      ∃ s1, elems.foldlM
          (fun s nd => (insert_aux (d + 1) s nd.first nd.second).map Prod.fst) s = some s1 ∧
        WF s1 ∧ s1.entries = s.entries ++ elems.map (fun nd => (nd.first, nd.second)) ∧
        s1.size_ = s.size_ + elems.length ∧ s1.cap_ = s.cap_ ∧ s1.hasher_ = s.hasher_ := by
  intro elems
  induction elems with
  | nil =>
    intro s hI hld
    exact ⟨s, rfl, ⟨hI, by simpa using hld⟩, by simp, rfl, rfl, rfl⟩
  | cons a t ih =>
    intro s hI hld
    simp only [List.length_cons] at hld
    obtain ⟨m1, p, hins, hW1, hel, hsz, hcap, hh, _⟩ :=
      insert_aux_small hI (by omega) a.first a.second d
    obtain ⟨s1, hf, hW, hent, hsz1, hcap1, hh1⟩ := ih m1 hW1.1 (by rw [hsz, hcap]; omega)
    refine ⟨s1, ?_, hW, ?_, ?_, by rw [hcap1, hcap], by rw [hh1, hh]⟩
    · simp only [List.foldlM_cons, hins, Option.map_some', Option.bind_eq_bind,
        Option.some_bind]
      exact hf
    · rw [hent]
      simp [HashMap.entries, hel]
    · rw [hsz1, hsz, List.length_cons]; omega

/-- Method `rebuild` on a state with the invariants and at most `cap_` entries: it returns, the
new capacity is the next prime from `2 * cap_ + 1` on, and the entries are kept in order. -/
theorem rebuild_with_spec {m : HashMap K V} (hI : Inv m) (hsz : m.size_ ≤ m.cap_) (d : Nat) :
    ∃ m2, rebuild_with (fun s k v => insert_aux (d + 1) s k v) m = some m2 ∧ WF m2 ∧
      m2.entries = m.entries ∧ m2.size_ = m.size_ ∧ m2.hasher_ = m.hasher_ ∧
      grow_cap_loop (m.cap_ + 1) (m.cap_ * 2 + 1) = some m2.cap_ := by
  obtain ⟨c1, hg, hp, hle, _, _⟩ := grow_cap_rebuild m.cap_ hI.cap_pos
  have hI0 : Inv ({ make_new_arrays { m with cap_ := c1 } with elem_list_ := [] } : HashMap K V) :=
    ⟨by show 0 < c1; omega, rfl, by simp, fun nd hnd => by simp at hnd,
      ⟨fun p _ ho => absurd rfl ho, fun p q _ _ ho => absurd rfl ho, fun i _ => Nat.zero_le _⟩,
      fun nd hnd => by simp at hnd⟩
  obtain ⟨s1, hf, hW, hent, hsz1, hcap1, hh1⟩ := reinsert_spec d m.elem_list_ _ hI0
    (by show 2 * (0 + m.elem_list_.length) ≤ c1; rw [← hI.size_eq]; omega)
  refine ⟨s1, ?_, hW, ?_, ?_, hh1, ?_⟩
  · simp only [rebuild_with, hg]
    exact hf
  · rw [hent]; simp [HashMap.entries, make_new_arrays]
  · rw [hsz1, hI.size_eq]; simp [make_new_arrays]
  · rw [hg, hcap1]; rfl

/-- Method `insert` on a well-formed state: it returns, with or without a rebuild, a well-formed
state whose iteration sequence is the old one followed by the new pair. -/
theorem insert_aux_spec {m : HashMap K V} (hW : WF m) (key : K) (val : V) (d : Nat) :
    ∃ m1 p, insert_aux (d + 2) m key val = some (m1, p) ∧ WF m1 ∧
      m1.entries = m.entries ++ [(key, val)] ∧ m1.size_ = m.size_ + 1 ∧
      m1.hasher_ = m.hasher_ ∧ find_pos m1 key = some p ∧
      (2 * (m.size_ + 1) ≤ m.cap_ →
        m1.cap_ = m.cap_ ∧ m1.elem_list_ = m.elem_list_ ++ [⟨m.fresh_, key, val⟩]) ∧
      (m.cap_ < 2 * (m.size_ + 1) →
        grow_cap_loop (m.cap_ + 1) (m.cap_ * 2 + 1) = some m1.cap_) := by
  by_cases hld : 2 * (m.size_ + 1) ≤ m.cap_
  · obtain ⟨m1, p, hins, hW1, hel, hsz, hcap, hh, hfp⟩ := insert_aux_small hW.1 hld key val (d + 1)
    exact ⟨m1, p, hins, hW1, by simp [HashMap.entries, hel], hsz, hh, hfp,
      fun _ => ⟨hcap, hel⟩, fun hh => by omega⟩
  · obtain ⟨m1, hcore, hI1, hel, hsz, hcap, hh, _⟩ := insert_core_spec hW.1 hW.size_lt key val
    have h2 := hW.size_lt
    have hle1 : m1.size_ ≤ m1.cap_ := by omega
    obtain ⟨m2, hrb, hW2, hent, hsz2, hh2, hg⟩ := rebuild_with_spec hI1 hle1 d
    obtain ⟨p, hfp, _⟩ := find_pos_spec hW2.1 hW2.size_lt key
    have hyes : m1.size_ * 2 > m1.cap_ := by rw [hsz, hcap]; omega
    refine ⟨m2, p, ?_, hW2, ?_, by rw [hsz2, hsz], by rw [hh2, hh], hfp,
      fun hh => absurd hh hld, fun _ => by rw [← hcap]; exact hg⟩
    · rw [insert_aux_succ]
      simp only [hcore, hyes, if_true, hrb, hfp, Option.map_some']
    · rw [hent]; simp [HashMap.entries, hel]

end insert

/-! ## The backward shift of `erase` -/

section erase_loop
variable {h : K → Nat} {cap : Nat} {el : List (Node K V)} {mc : Nat → Nat} {li : Nat → Iter}
  {pos : Nat}

theorem EraState.stop (s : EraState h cap el mc li pos) (hle : ¬ mc (wrap_inc cap pos) > 1) :
    TableInv h cap el mc li := by
  refine ⟨s.slot, s.inj, fun i hi => ?_⟩
  by_cases hip : i = pos
  · subst hip; omega
  · exact s.rh i hi hip

theorem EraState.shift (s : EraState h cap el mc li pos) (hgt : mc (wrap_inc cap pos) > 1) :
    EraState h cap el
      (Function.update (Function.update mc pos (mc (wrap_inc cap pos) - 1)) (wrap_inc cap pos) 0)
      (Function.update li pos (li (wrap_inc cap pos))) (wrap_inc cap pos) := by
  have hc : 0 < cap := Nat.lt_of_le_of_lt (Nat.zero_le _) s.pos_lt
  have hnx : wrap_inc cap pos < cap := wrap_inc_lt s.pos_lt
  have hne : wrap_inc cap pos ≠ pos := fun hh => by
    have := s.hole
    rw [hh] at hgt
    omega
  have hno : mc (wrap_inc cap pos) ≠ 0 := by omega
  generalize hnxd : wrap_inc cap pos = nx at *
  have hmc : ∀ p, Function.update (Function.update mc pos (mc nx - 1)) nx 0 p =
      if p = nx then 0 else if p = pos then mc nx - 1 else mc p := by
    intro p
    by_cases h1 : p = nx
    · subst h1; simp
    · by_cases h2 : p = pos
      · subst h2; simp [h1]
      · simp [h1, h2]
  have hli : ∀ p, Function.update li pos (li nx) p = if p = pos then li nx else li p := by
    intro p
    by_cases h2 : p = pos
    · subst h2; simp
    · simp [h2]
  refine ⟨hnx, by rw [hmc]; simp, ?_, ?_, ?_, ?_, ?_⟩
  · intro p hp ho
    rw [hmc] at ho
    rw [hmc, hli]
    by_cases h1 : p = nx
    · simp [h1] at ho
    · rw [if_neg h1] at ho ⊢
      by_cases h2 : p = pos
      · rw [if_pos h2] at ho ⊢
        rw [if_pos h2]
        obtain ⟨nd, hnd, hl, hpos⟩ := s.slot nx hnx hno
        refine ⟨nd, hnd, hl, ?_⟩
        have hw := wrap_inc_mod hc (h nd.first + (mc nx - 1 - 1))
        rw [show h nd.first + (mc nx - 1 - 1) + 1 = h nd.first + (mc nx - 1) by omega,
          ← hpos] at hw
        rw [h2]
        exact (wrap_inc_inj (hw.trans hnxd.symm)).symm
      · rw [if_neg h2] at ho ⊢
        rw [if_neg h2]
        exact s.slot p hp ho
  · intro p q hp hq hop hoq hpq
    rw [hmc] at hop hoq
    rw [hli, hli] at hpq
    by_cases hp1 : p = nx
    · simp [hp1] at hop
    by_cases hq1 : q = nx
    · simp [hq1] at hoq
    rw [if_neg hp1] at hop
    rw [if_neg hq1] at hoq
    by_cases hp2 : p = pos <;> by_cases hq2 : q = pos
    · rw [hp2, hq2]
    · rw [if_pos hp2, if_neg hq2] at hpq
      rw [if_neg hq2] at hoq
      exact absurd (s.inj nx q hnx hq hno hoq hpq).symm hq1
    · rw [if_neg hp2, if_pos hq2] at hpq
      rw [if_neg hp2] at hop
      exact absurd (s.inj p nx hp hnx hop hno hpq) hp1
    · rw [if_neg hp2, if_neg hq2] at hpq
      rw [if_neg hp2] at hop
      rw [if_neg hq2] at hoq
      exact s.inj p q hp hq hop hoq hpq
  · intro i hi hin
    rw [hmc, hmc, if_neg hin]
    by_cases hw1 : wrap_inc cap i = nx
    · rw [if_pos hw1]; omega
    · rw [if_neg hw1]
      have hip : i ≠ pos := fun hh => hw1 (by rw [hh, hnxd])
      rw [if_neg hip]
      by_cases hw2 : wrap_inc cap i = pos
      · rw [if_pos hw2]
        have := s.gap i hi hw2
        rw [hnxd] at this
        omega
      · rw [if_neg hw2]
        exact s.rh i hi hip
  · intro i hi hw
    have hip : i = pos := wrap_inc_inj (hw.trans hnxd.symm)
    subst hip
    rw [hmc, hmc, if_neg (Ne.symm hne), if_pos rfl]
    have hww : wrap_inc cap nx ≠ nx := fun hh => hne (by
      rw [← hnxd] at hh ⊢
      exact wrap_inc_inj hh)
    rw [if_neg hww]
    by_cases hw2 : wrap_inc cap nx = i
    · rw [if_pos hw2]; omega
    · rw [if_neg hw2]
      have := s.rh nx hnx hne
      omega
  · intro nd hnd
    obtain ⟨p, hp, hpo, hpl⟩ := s.cover nd hnd
    by_cases h1 : p = nx
    · refine ⟨pos, s.pos_lt, ?_, ?_⟩
      · rw [hmc, if_neg (Ne.symm hne), if_pos rfl]; omega
      · rw [hli, if_pos rfl, ← h1]; exact hpl
    · have h2 : p ≠ pos := fun hh => hpo (hh ▸ s.hole)
      exact ⟨p, hp, by rw [hmc, if_neg h1, if_neg h2]; exact hpo,
        by rw [hli, if_neg h2]; exact hpl⟩

/-- The backward shift stops within `dist cap next e + 1` tests of its condition, where `e` is
any empty slot other than the hole, and leaves a consistent table. -/
theorem erase_loop_spec :
    ∀ (fuel : Nat) (mc : Nat → Nat) (li : Nat → Iter) (pos e : Nat),
      EraState h cap el mc li pos → e < cap → mc e = 0 → e ≠ pos →
      dist cap (wrap_inc cap pos) e < fuel →
      ∃ mc1 li1, erase_loop cap fuel mc li pos (wrap_inc cap pos) = some (mc1, li1) ∧
        TableInv h cap el mc1 li1 ∧ Covered cap el mc1 li1 := by
  intro fuel
  induction fuel with
  | zero => intro _ _ _ _ _ _ _ _ hd; omega
  | succ fuel ih =>
    intro mc li pos e s he hem hep hd
    unfold erase_loop
    by_cases hgt : mc (wrap_inc cap pos) > 1
    · rw [if_pos hgt]
      have hne : wrap_inc cap pos ≠ e := fun hh => by rw [hh] at hgt; omega
      have hdd := dist_wrap_inc (wrap_inc_lt s.pos_lt) he hne
      exact ih _ _ _ e (s.shift hgt) he
        (by rw [Function.update_noteq (Ne.symm hne), Function.update_noteq hep]; exact hem)
        (Ne.symm hne) (by omega)
    · rw [if_neg hgt]
      exact ⟨mc, li, rfl, s.stop hgt, s.cover⟩

end erase_loop

/-! ## `erase` -/

theorem id_ne_of_mem_eraseP {el : List (Node K V)} (hnd : (el.map Node.id).Nodup)
    {nd : Node K V} (hmem : nd ∈ el) :
    ∀ x, x ∈ el.eraseP (fun y => y.id == nd.id) → x.id ≠ nd.id := by
  intro x hx
  obtain ⟨a, l1, l2, hl1, hpa, hel, her⟩ :=
    List.exists_of_eraseP (p := fun y : Node K V => y.id == nd.id) hmem (by simp)
  have haid : a.id = nd.id := by simpa using hpa
  rw [her] at hx
  rw [hel] at hnd
  simp only [List.map_append, List.map_cons] at hnd
  rcases List.mem_append.1 hx with h1 | h1
  · simpa using hl1 x h1
  · have h2 := (List.nodup_cons.1 (List.nodup_append.1 hnd).2.1).1
    intro hh
    exact h2 (by rw [haid, ← hh]; exact List.mem_map_of_mem Node.id h1)

section erase
variable [DecidableEq K]

/-- Method `erase` on a well-formed state: it returns a well-formed state; an absent key leaves
the state as it is, a present key removes exactly one node carrying that key. -/
theorem erase_spec {m : HashMap K V} (hW : WF m) (key : K) :
    ∃ m1, erase m key = some m1 ∧ WF m1 ∧ m1.hasher_ = m.hasher_ ∧ m1.cap_ = m.cap_ ∧
      ((∀ nd, nd ∈ m.elem_list_ → nd.first ≠ key) → m1 = m) ∧
      ((∃ nd, nd ∈ m.elem_list_ ∧ nd.first = key) →
        ∃ l1 a l2, m.elem_list_ = l1 ++ a :: l2 ∧ a.first = key ∧
          m1.elem_list_ = l1 ++ l2 ∧ m1.size_ + 1 = m.size_) := by
  have hI := hW.1
  have hc := hI.cap_pos
  obtain ⟨p, hfp, hp, hstop, hocc⟩ := find_pos_spec hI hW.size_lt key
  by_cases h0 : m.move_cnt_ p = 0
  · refine ⟨m, by simp only [erase, hfp, h0, if_true], hW, rfl, rfl, fun _ => rfl, ?_⟩
    intro hex
    exact absurd h0 (hocc hex)
  · obtain ⟨nd, hnd, hli, hd, hpos⟩ := hI.deref_slot hp h0
    have hkey : nd.first = key := by
      rcases hstop with h | ⟨nd2, hd2, hk⟩
      · exact absurd h h0
      · rw [hd] at hd2; injection hd2 with h; rw [h]; exact hk
    obtain ⟨e, he, hem⟩ := hI.free_slot hW.size_lt
    have hep : e ≠ p := fun hh => h0 (hh ▸ hem)
    set el1 := m.elem_list_.eraseP (fun x => x.id == nd.id) with hel1
    have hs : EraState m.hasher_ m.cap_ el1 (Function.update m.move_cnt_ p 0) m.list_iters_ p := by
      refine ⟨hp, by simp, ?_, ?_, ?_, ?_, ?_⟩
      · intro q hq ho
        have hqp : q ≠ p := fun hh => by rw [hh, Function.update_same] at ho; exact ho rfl
        rw [Function.update_noteq hqp] at ho ⊢
        obtain ⟨nd2, hnd2, hl2, hpos2⟩ := hI.table.slot q hq ho
        refine ⟨nd2, ?_, hl2, hpos2⟩
        have hidne : nd2.id ≠ nd.id := fun hh =>
          hqp (hI.table.inj q p hq hp ho h0 (by rw [hl2, hli, hh]))
        rw [hel1, List.mem_eraseP_of_neg (by simpa using hidne)]
        exact hnd2
      · intro q r hq hr hoq hor hqr
        have hqp : q ≠ p := fun hh => by rw [hh, Function.update_same] at hoq; exact hoq rfl
        have hrp : r ≠ p := fun hh => by rw [hh, Function.update_same] at hor; exact hor rfl
        rw [Function.update_noteq hqp] at hoq
        rw [Function.update_noteq hrp] at hor
        exact hI.table.inj q r hq hr hoq hor hqr
      · intro i hi hip
        rw [Function.update_noteq hip]
        have := hI.table.rh i hi
        by_cases hw : wrap_inc m.cap_ i = p
        · rw [hw, Function.update_same]; omega
        · rw [Function.update_noteq hw]; exact this
      · intro i hi hw
        have h1 := hI.table.rh i hi
        have h2 := hI.table.rh p hp
        rw [hw] at h1
        by_cases hwp : wrap_inc m.cap_ p = p
        · rw [hwp, Function.update_same]; omega
        · rw [Function.update_noteq hwp]
          by_cases hip : i = p
          · exact absurd (hip ▸ hw) hwp
          · rw [Function.update_noteq hip]; omega
      · intro nd2 hnd2
        have hmem : nd2 ∈ m.elem_list_ := List.mem_of_mem_eraseP hnd2
        obtain ⟨q, hq, hqo, hql⟩ := hI.cover nd2 hmem
        have hidne := id_ne_of_mem_eraseP hI.nodup hnd nd2 hnd2
        have hqp : q ≠ p := fun hh => by
          rw [hh, hli] at hql
          injection hql with h
          exact hidne h.symm
        exact ⟨q, hq, by rwa [Function.update_noteq hqp], hql⟩
    obtain ⟨mc1, li1, hr, ht, hcv⟩ := erase_loop_spec m.cap_ _ _ p e hs he
      (by rw [Function.update_noteq hep]; exact hem) hep (dist_lt (wrap_inc_lt hp) he)
    have hr2 : erase_loop m.cap_ m.cap_ (Function.update m.move_cnt_ p 0) m.list_iters_ p
        (if p + 1 = m.cap_ then 0 else p + 1) = some (mc1, li1) := hr
    have hlen : el1.length = m.elem_list_.length - 1 :=
      List.length_eraseP_of_mem hnd (by simp)
    have hpos_len : 0 < m.elem_list_.length := List.length_pos_of_mem hnd
    have hsz := hI.size_eq
    refine ⟨{ m with elem_list_ := el1, move_cnt_ := mc1, list_iters_ := li1,
                     size_ := m.size_ - 1 }, ?_, ?_, rfl, rfl, ?_, ?_⟩
    · simp only [erase, hfp, h0, if_false, list_erase, hd, hr2]
    · refine ⟨⟨hc, ?_, ?_, ?_, ht, hcv⟩, ?_⟩
      · show m.size_ - 1 = el1.length
        omega
      · exact List.Nodup.sublist (List.Sublist.map _ (List.eraseP_sublist _)) hI.nodup
      · intro x hx
        exact hI.fresh x (List.mem_of_mem_eraseP hx)
      · have := hW.2
        show 2 * (m.size_ - 1) ≤ m.cap_
        omega
    · intro habs
      exact absurd hkey (habs nd hnd)
    · intro _
      obtain ⟨a, l1, l2, _, hpa, hel, her⟩ :=
        List.exists_of_eraseP (p := fun y : Node K V => y.id == nd.id) hnd (by simp)
      have haid : a.id = nd.id := by simpa using hpa
      have hamem : a ∈ m.elem_list_ := by rw [hel]; simp
      have ha : a = nd := eq_of_id_eq hI.nodup hamem hnd haid
      refine ⟨l1, a, l2, hel, by rw [ha]; exact hkey, her, ?_⟩
      show m.size_ - 1 + 1 = m.size_
      omega

end erase

/-! ## `clear`, `operator[]` and the reachable states -/

theorem mk_default_wf (hasher : K → Nat) : WF (HashMap.mk_default hasher : HashMap K V) :=
  ⟨⟨by show 0 < 11; omega, rfl, by simp [HashMap.mk_default, HashMap.mk_cap, init, make_new_arrays],
      fun nd hnd => by simp [HashMap.mk_default, HashMap.mk_cap, init, make_new_arrays] at hnd,
      ⟨fun p _ ho => absurd rfl ho, fun p q _ _ ho => absurd rfl ho, fun i _ => Nat.zero_le _⟩,
      fun nd hnd => by simp [HashMap.mk_default, HashMap.mk_cap, init, make_new_arrays] at hnd⟩,
    by show 2 * 0 ≤ 11; omega⟩

section reach
variable [DecidableEq K]

/-- Method `insert` on a well-formed state (any nesting bound from 2 on gives the same). -/
theorem insert_spec {m : HashMap K V} (hW : WF m) (key : K) (val : V) :
    ∃ m1 p, insert m key val = some (m1, p) ∧ WF m1 ∧
      m1.entries = m.entries ++ [(key, val)] ∧ m1.size_ = m.size_ + 1 ∧
      m1.hasher_ = m.hasher_ ∧ find_pos m1 key = some p := by
  obtain ⟨m1, p, h1, h2, h3, h4, h5, h6, _⟩ := insert_aux_spec hW key val 0
  exact ⟨m1, p, h1, h2, h3, h4, h5, h6⟩

theorem erase_fold_spec :
    ∀ (elems : List (Node K V)) (s : HashMap K V), WF s →
      ∃ s1, elems.foldlM (fun s nd => erase s nd.first) s = some s1 ∧ WF s1 ∧
        s1.cap_ = s.cap_ ∧ s1.hasher_ = s.hasher_ := by
  intro elems
  induction elems with
  | nil => intro s hW; exact ⟨s, rfl, hW, rfl, rfl⟩
  | cons a t ih =>
    intro s hW
    obtain ⟨m1, he, hW1, hh, hcap, _⟩ := erase_spec hW a.first
    obtain ⟨s1, hf, hW2, hcap2, hh2⟩ := ih m1 hW1
    refine ⟨s1, ?_, hW2, by rw [hcap2, hcap], by rw [hh2, hh]⟩
    simp only [List.foldlM_cons, he, Option.bind_eq_bind, Option.some_bind]
    exact hf

/-- Method `clear` on a well-formed state returns a well-formed state of the same capacity. -/
theorem clear_spec {m : HashMap K V} (hW : WF m) :
    ∃ m1, clear m = some m1 ∧ WF m1 ∧ m1.cap_ = m.cap_ ∧ m1.hasher_ = m.hasher_ :=
  erase_fold_spec m.elem_list_ m hW

/-- What `find_pos` reports on a well-formed state, in terms of the backing sequence. -/
theorem find_pos_wf {m : HashMap K V} (hW : WF m) (key : K) :
    ∃ p, find_pos m key = some p ∧ p < m.cap_ ∧
      ((∀ nd, nd ∈ m.elem_list_ → nd.first ≠ key) → m.move_cnt_ p = 0) ∧
      (m.move_cnt_ p ≠ 0 → ∃ nd, nd ∈ m.elem_list_ ∧ nd.first = key ∧
        m.list_iters_ p = Iter.node nd.id ∧ deref m.elem_list_ (m.list_iters_ p) = some nd) ∧
      ((∃ nd, nd ∈ m.elem_list_ ∧ nd.first = key) → m.move_cnt_ p ≠ 0) := by
  obtain ⟨p, hfp, hp, hstop, hocc⟩ := find_pos_spec hW.1 hW.size_lt key
  have hhit : m.move_cnt_ p ≠ 0 → ∃ nd, nd ∈ m.elem_list_ ∧ nd.first = key ∧
      m.list_iters_ p = Iter.node nd.id ∧ deref m.elem_list_ (m.list_iters_ p) = some nd := by
    intro ho
    rcases hstop with h | ⟨nd, hd, hk⟩
    · exact absurd h ho
    · exact ⟨nd, (deref_some hd).1, hk, (deref_some hd).2, hd⟩
  refine ⟨p, hfp, hp, ?_, hhit, hocc⟩
  intro habs
  by_contra ho
  obtain ⟨nd, hnd, hk, _⟩ := hhit ho
  exact habs nd hnd hk

/-- Method `operator[]` on a well-formed state returns a well-formed state. -/
theorem index_wf [Inhabited V] {m : HashMap K V} (hW : WF m) (key : K) :
    ∃ m1 nd, index m key = some (m1, nd) ∧ WF m1 := by
  obtain ⟨p, hfp, hp, _, hhit, _⟩ := find_pos_wf hW key
  by_cases h0 : m.move_cnt_ p = 0
  · obtain ⟨m1, p1, hins, hW1, hent, _, _, hfp1⟩ := insert_spec hW key (default : V)
    obtain ⟨p2, hfp2, _, _, hhit2, hocc2⟩ := find_pos_wf hW1 key
    rw [hfp1] at hfp2
    injection hfp2 with hpp
    subst hpp
    have hex : ∃ nd, nd ∈ m1.elem_list_ ∧ nd.first = key := by
      have : (key, (default : V)) ∈ m1.entries := by rw [hent]; simp
      obtain ⟨nd, hnd, heq⟩ := List.mem_map.1 this
      exact ⟨nd, hnd, by injection heq⟩
    obtain ⟨nd, _, _, _, hd⟩ := hhit2 (hocc2 hex)
    exact ⟨m1, nd, by simp only [index, hfp, h0, if_true, hins, hd, Option.map_some'], hW1⟩
  · obtain ⟨nd, _, _, _, hd⟩ := hhit h0
    exact ⟨m, nd, by simp only [index, hfp, h0, if_false, hd, Option.map_some'], hW⟩

theorem index_state [Inhabited V] {m m1 : HashMap K V} {nd : Node K V} {key : K}
    (h : index m key = some (m1, nd)) :
    m1 = m ∨ ∃ p, insert m key default = some (m1, p) := by
  unfold index at h
  split at h
  · exact absurd h (by simp)
  · split at h
    · split at h
      · exact absurd h (by simp)
      · rename_i m2 p2 hins
        simp only [Option.map_eq_some'] at h
        obtain ⟨_, _, heq⟩ := h
        injection heq with h1 _
        exact Or.inr ⟨p2, by rw [← h1]; exact hins⟩
    · simp only [Option.map_eq_some'] at h
      obtain ⟨_, _, heq⟩ := h
      injection heq with h1 _
      exact Or.inl h1.symm

/-- Every reachable state is well formed: representation invariant and load factor. -/
theorem Reachable.wf [Inhabited V] {m : HashMap K V} (hr : Reachable m) : WF m := by
  induction hr with
  | init hasher => exact mk_default_wf hasher
  | insert key val _ h ih =>
    obtain ⟨m1, p, h1, hW, _⟩ := insert_spec ih key val
    rw [h1] at h
    injection h with h
    injection h with h2 _
    exact h2 ▸ hW
  | erase key _ h ih =>
    obtain ⟨m1, h1, hW, _⟩ := erase_spec ih key
    rw [h1] at h
    injection h with h
    exact h ▸ hW
  | index key _ h ih =>
    rcases index_state h with h1 | ⟨p, h1⟩
    · exact h1 ▸ ih
    · obtain ⟨m1, p1, h2, hW, _⟩ := insert_spec ih key (default : V)
      rw [h2] at h1
      injection h1 with h1
      injection h1 with h3 _
      exact h3 ▸ hW
  | clear _ h ih =>
    obtain ⟨m1, h1, hW, _⟩ := clear_spec ih
    rw [h1] at h
    injection h with h
    exact h ▸ hW

end reach

/-! ## Consequences used by the contract theorems -/

theorem unique_of_count_le_one [DecidableEq K] {k : K} :
    ∀ {el : List (Node K V)}, (el.map Node.first).count k ≤ 1 →
      ∀ x y, x ∈ el → y ∈ el → x.first = k → y.first = k → x = y := by
  intro el
  induction el with
  | nil => intro _ x y hx; simp at hx
  | cons a t ih =>
    intro hc x y hx hy hxk hyk
    simp only [List.map_cons, List.count_cons] at hc
    by_cases hak : a.first = k
    · have h0 : (t.map Node.first).count k = 0 := by
        simp only [hak, beq_self_eq_true, if_true] at hc
        omega
      have hnot : ∀ z, z ∈ t → z.first ≠ k := fun z hz hzk =>
        (List.count_eq_zero.1 h0) (hzk ▸ List.mem_map_of_mem Node.first hz)
      rcases List.mem_cons.1 hx with h1 | h1
      · rcases List.mem_cons.1 hy with h2 | h2
        · rw [h1, h2]
        · exact absurd hyk (hnot y h2)
      · exact absurd hxk (hnot x h1)
    · rcases List.mem_cons.1 hx with h1 | h1
      · exact absurd (h1 ▸ hxk) hak
      · rcases List.mem_cons.1 hy with h2 | h2
        · exact absurd (h2 ▸ hyk) hak
        · have hb : (a.first == k) = false := by simpa using hak
          simp only [hb] at hc
          exact ih (by simpa using hc) x y h1 h2 hxk hyk

theorem mem_entries {m : HashMap K V} {k : K} {v : V} :
    (k, v) ∈ m.entries ↔ ∃ nd, nd ∈ m.elem_list_ ∧ nd.first = k ∧ nd.second = v := by
  simp only [HashMap.entries, List.mem_map, Prod.mk.injEq]

section contract_lemmas
variable [DecidableEq K]

/-- Method `find` on a well-formed state. -/
theorem find_wf {m : HashMap K V} (hW : WF m) (k : K) :
    ((∃ nd, nd ∈ m.elem_list_ ∧ nd.first = k) →
      ∃ p nd, find_pos m k = some p ∧ p < m.cap_ ∧ m.move_cnt_ p ≠ 0 ∧
        nd ∈ m.elem_list_ ∧ nd.first = k ∧ find m k = some (Iter.node nd.id) ∧
        deref m.elem_list_ (Iter.node nd.id) = some nd) ∧
    ((∀ nd, nd ∈ m.elem_list_ → nd.first ≠ k) →
      ∃ p, find_pos m k = some p ∧ p < m.cap_ ∧ m.move_cnt_ p = 0 ∧
        find m k = some Iter.past_end) := by
  obtain ⟨p, hfp, hp, habs, hhit, hocc⟩ := find_pos_wf hW k
  refine ⟨fun hex => ?_, fun hno => ?_⟩
  · obtain ⟨nd, hnd, hk, hli, hd⟩ := hhit (hocc hex)
    refine ⟨p, nd, hfp, hp, hocc hex, hnd, hk, ?_, by rw [← hli]; exact hd⟩
    simp only [find, hfp, hocc hex, if_false, hli]
  · exact ⟨p, hfp, hp, habs hno, by simp only [find, hfp, habs hno, if_true]⟩

/-- Method `at` on a well-formed state. -/
theorem at_wf {m : HashMap K V} (hW : WF m) (k : K) :
    ((∃ nd, nd ∈ m.elem_list_ ∧ nd.first = k) →
      ∃ nd, nd ∈ m.elem_list_ ∧ nd.first = k ∧ at_ m k = some (Except.ok nd.second)) ∧
    ((∀ nd, nd ∈ m.elem_list_ → nd.first ≠ k) →
      at_ m k = some (Except.error "Element not found")) := by
  obtain ⟨p, hfp, hp, habs, hhit, hocc⟩ := find_pos_wf hW k
  refine ⟨fun hex => ?_, fun hno => ?_⟩
  · obtain ⟨nd, hnd, hk, _, hd⟩ := hhit (hocc hex)
    exact ⟨nd, hnd, hk, by simp only [at_, hfp, hocc hex, if_false, hd, Option.map_some']⟩
  · simp only [at_, hfp, habs hno, if_true]

theorem insert_all_spec [Inhabited V] :
    ∀ (l : List (K × V)) (m : HashMap K V), WF m →
      ∃ m1, insert_all m l = some m1 ∧ WF m1 ∧ m1.entries = m.entries ++ l ∧
        m1.size_ = m.size_ + l.length ∧ (Reachable m → Reachable m1) := by
  intro l
  induction l with
  | nil => intro m hW; exact ⟨m, rfl, hW, by simp, rfl, id⟩
  | cons a t ih =>
    intro m hW
    obtain ⟨m1, p, hins, hW1, hent, hsz, _⟩ := insert_spec hW a.1 a.2
    obtain ⟨m2, hall, hW2, hent2, hsz2, hre⟩ := ih m1 hW1
    refine ⟨m2, ?_, hW2, by rw [hent2, hent]; simp, by rw [hsz2, hsz, List.length_cons]; omega,
      fun hr => hre (Reachable.insert a.1 a.2 hr hins)⟩
    simp only [insert_all, List.foldlM_cons, hins, Option.map_some', Option.bind_eq_bind,
      Option.some_bind]
    exact hall

end contract_lemmas

/-! ## `clear`, copy construction and assignment -/

/-- A table just made by `make_new_arrays`, with an empty list, has the invariants. -/
theorem fresh_table_inv {m : HashMap K V} (hc : 0 < m.cap_) (hel : m.elem_list_ = []) :
    Inv (make_new_arrays m) :=
  ⟨hc, by show 0 = m.elem_list_.length; rw [hel]; rfl,
    by show (m.elem_list_.map Node.id).Nodup; rw [hel]; simp,
    fun nd hnd => by
      have : nd ∈ m.elem_list_ := hnd
      rw [hel] at this; simp at this,
    ⟨fun p _ ho => absurd rfl ho, fun p q _ _ ho => absurd rfl ho, fun i _ => Nat.zero_le _⟩,
    fun nd hnd => by
      have : nd ∈ m.elem_list_ := hnd
      rw [hel] at this; simp at this⟩

section more_ops
variable [DecidableEq K]

theorem erase_fold_empties :
    ∀ (elems : List (Node K V)) (s : HashMap K V), WF s →
      List.Perm (s.elem_list_.map Node.first) (elems.map Node.first) →
      ∃ s1, elems.foldlM (fun s nd => erase s nd.first) s = some s1 ∧ WF s1 ∧
        s1.elem_list_ = [] ∧ s1.cap_ = s.cap_ ∧ s1.hasher_ = s.hasher_ := by
  intro elems
  induction elems with
  | nil =>
    intro s hW hperm
    have : s.elem_list_ = [] := by simpa using hperm.eq_nil
    exact ⟨s, rfl, hW, this, rfl, rfl⟩
  | cons a t ih =>
    intro s hW hperm
    have hmem : a.first ∈ s.elem_list_.map Node.first :=
      hperm.symm.subset (by simp)
    obtain ⟨nd, hnd, hk⟩ := List.mem_map.1 hmem
    obtain ⟨m1, he, hW1, hh, hcap, _, hpres⟩ := erase_spec hW a.first
    obtain ⟨l1, x, l2, hel, hx, hel1, _⟩ := hpres ⟨nd, hnd, hk⟩
    have hperm1 : List.Perm (m1.elem_list_.map Node.first) (t.map Node.first) := by
      rw [hel] at hperm
      rw [hel1]
      simp only [List.map_append, List.map_cons, hx] at hperm ⊢
      exact (List.perm_middle.symm.trans hperm).cons_inv
    obtain ⟨s1, hf, hW2, hemp, hcap2, hh2⟩ := ih m1 hW1 hperm1
    refine ⟨s1, ?_, hW2, hemp, by rw [hcap2, hcap], by rw [hh2, hh]⟩
    simp only [List.foldlM_cons, he, Option.bind_eq_bind, Option.some_bind]
    exact hf

/-- Method `clear` on a well-formed state empties the sequence and the table and keeps `cap_`. -/
theorem clear_empties {m : HashMap K V} (hW : WF m) :
    ∃ m1, clear m = some m1 ∧ WF m1 ∧ m1.elem_list_ = [] ∧ m1.size_ = 0 ∧
      m1.cap_ = m.cap_ ∧ m1.hasher_ = m.hasher_ ∧ ∀ p, p < m1.cap_ → m1.move_cnt_ p = 0 := by
  obtain ⟨m1, hc, hW1, hemp, hcap, hh⟩ := erase_fold_empties m.elem_list_ m hW (List.Perm.refl _)
  refine ⟨m1, hc, hW1, hemp, by rw [hW1.1.size_eq, hemp]; rfl, hcap, hh, fun p hp => ?_⟩
  by_contra ho
  obtain ⟨nd, hnd, _⟩ := hW1.1.table.slot p hp ho
  rw [hemp] at hnd
  simp at hnd

/-- The loop of the copy constructor and of `operator=`: public inserts of the nodes of a list
into a table with room for all of them. -/
theorem insert_nodes_spec :
    ∀ (elems : List (Node K V)) (s : HashMap K V), Inv s →
      2 * (s.size_ + elems.length) ≤ s.cap_ →
      ∃ s1, elems.foldlM (fun s nd => (insert s nd.first nd.second).map Prod.fst) s = some s1 ∧
        WF s1 ∧ s1.entries = s.entries ++ elems.map (fun nd => (nd.first, nd.second)) ∧
        s1.size_ = s.size_ + elems.length ∧ s1.cap_ = s.cap_ ∧ s1.hasher_ = s.hasher_ :=
  reinsert_spec 1

theorem copy_ctor_spec {other : HashMap K V} (hI : Inv other) :
    ∃ m, copy_ctor other = some m ∧ WF m ∧ m.entries = other.entries ∧
      m.size_ = other.size_ ∧ m.cap_ = max 11 (other.size_ * 3) ∧
      m.hasher_ = other.hasher_ := by
  have hI0 : Inv (make_new_arrays (⟨other.hasher_, fun _ => 0, [], fun _ => Iter.singular,
      max 11 (other.size_ * 3), 0, 0⟩ : HashMap K V)) :=
    fresh_table_inv (by show 0 < max 11 (other.size_ * 3); omega) rfl
  obtain ⟨m, hf, hW, hent, hsz, hcap, hh⟩ := insert_nodes_spec other.elem_list_ _ hI0
    (by show 2 * (0 + other.elem_list_.length) ≤ max 11 (other.size_ * 3)
        rw [← hI.size_eq]; omega)
  refine ⟨m, hf, hW, ?_, ?_, hcap, hh⟩
  · rw [hent]; simp [HashMap.entries, make_new_arrays]
  · rw [hsz, hI.size_eq]; simp [make_new_arrays]

theorem assign_body_spec {self other : HashMap K V} (hemp : self.elem_list_ = [])
    (hI : Inv other) :
    ∃ m, assign_body self other = some m ∧ WF m ∧ m.entries = other.entries ∧
      m.size_ = other.size_ ∧ m.cap_ = max 11 (other.size_ * 3) ∧
      m.hasher_ = other.hasher_ := by
  have hI0 : Inv (make_new_arrays
      ({ self with hasher_ := other.hasher_, cap_ := max 11 (other.size_ * 3) } : HashMap K V)) :=
    fresh_table_inv (by show 0 < max 11 (other.size_ * 3); omega) hemp
  obtain ⟨m, hf, hW, hent, hsz, hcap, hh⟩ := insert_nodes_spec other.elem_list_ _ hI0
    (by show 2 * (0 + other.elem_list_.length) ≤ max 11 (other.size_ * 3)
        rw [← hI.size_eq]; omega)
  refine ⟨m, hf, hW, ?_, ?_, hcap, hh⟩
  · rw [hent]; simp [HashMap.entries, make_new_arrays, hemp]
  · rw [hsz, hI.size_eq]; simp [make_new_arrays]

theorem assign_spec {self other : HashMap K V} (hs : WF self) (hI : Inv other) :
    ∃ m, assign self other = some m ∧ WF m ∧ m.entries = other.entries ∧
      m.size_ = other.size_ ∧ m.cap_ = max 11 (other.size_ * 3) ∧
      m.hasher_ = other.hasher_ := by
  obtain ⟨s, hc, hWs, hemp, _⟩ := clear_empties hs
  obtain ⟨m, hb, hr⟩ := assign_body_spec hemp hI
  exact ⟨m, by simp only [assign, hc, Option.some_bind, hb], hr⟩

theorem assign_self_spec {self : HashMap K V} (hs : WF self) :
    ∃ m, assign_self self = some m ∧ WF m ∧ m.elem_list_ = [] ∧ m.size_ = 0 ∧ m.cap_ = 11 := by
  obtain ⟨s, hc, hWs, hemp, hsz, _⟩ := clear_empties hs
  have hcap : max 11 (s.size_ * 3) = 11 := by rw [hsz]; rfl
  refine ⟨make_new_arrays { s with cap_ := max 11 (s.size_ * 3) }, ?_, ⟨?_, ?_⟩, hemp, rfl, hcap⟩
  · simp only [assign_self, hc, Option.some_bind, hemp]
  · exact fresh_table_inv (by show 0 < max 11 (s.size_ * 3); omega) hemp
  · show 2 * 0 ≤ max 11 (s.size_ * 3)
    omega

theorem mk_range_spec [Inhabited V] (hasher : K → Nat) (l : List (K × V)) :
    ∃ m, HashMap.mk_range hasher l = some m ∧ WF m ∧ m.entries = l ∧ Reachable m := by
  obtain ⟨m, hall, hW, hent, _, hre⟩ := insert_all_spec l _ (mk_default_wf hasher)
  refine ⟨m, hall, hW, ?_, hre (Reachable.init hasher)⟩
  rw [hent]; simp [HashMap.entries, HashMap.mk_default, HashMap.mk_cap, init, make_new_arrays]

/-- Every built state is well formed. -/
theorem Built.well_formed [Inhabited V] {b : Bool} {m : HashMap K V} (hb : Built b m) : WF m := by
  induction hb with
  | init hasher => exact mk_default_wf hasher
  | range hasher l h =>
    obtain ⟨m1, h1, hW, _⟩ := mk_range_spec hasher l
    rw [h1] at h
    injection h with h
    exact h ▸ hW
  | copy _ _ h ih =>
    obtain ⟨m1, h1, hW, _⟩ := copy_ctor_spec ih.1
    rw [h1] at h
    injection h with h
    exact h ▸ hW
  | assign _ _ _ h ih1 ih2 =>
    obtain ⟨m1, h1, hW, _⟩ := assign_spec ih1 ih2.1
    rw [h1] at h
    injection h with h
    exact h ▸ hW
  | assign_self _ _ h ih =>
    obtain ⟨m1, h1, hW, _⟩ := assign_self_spec ih
    rw [h1] at h
    injection h with h
    exact h ▸ hW
  | insert key val _ h ih =>
    obtain ⟨m1, p, h1, hW, _⟩ := insert_spec ih key val
    rw [h1] at h
    injection h with h
    injection h with h2 _
    exact h2 ▸ hW
  | erase key _ h ih =>
    obtain ⟨m1, h1, hW, _⟩ := erase_spec ih key
    rw [h1] at h
    injection h with h
    exact h ▸ hW
  | index key _ h ih =>
    rcases index_state h with h1 | ⟨p, h1⟩
    · exact h1 ▸ ih
    · obtain ⟨m1, p1, h2, hW, _⟩ := insert_spec ih key (default : V)
      rw [h2] at h1
      injection h1 with h1
      injection h1 with h3 _
      exact h3 ▸ hW
  | clear _ h ih =>
    obtain ⟨m1, h1, hW, _⟩ := clear_spec ih
    rw [h1] at h
    injection h with h
    exact h ▸ hW

/-- The states reachable from a default-constructed map are built states. -/
theorem Reachable.built [Inhabited V] {m : HashMap K V} (b : Bool) (hr : Reachable m) :
    Built b m := by
  induction hr with
  | init hasher => exact Built.init hasher
  | insert key val _ h ih => exact Built.insert key val ih h
  | erase key _ h ih => exact Built.erase key ih h
  | index key _ h ih => exact Built.index key ih h
  | clear _ h ih => exact Built.clear ih h

end more_ops

/-! ## Node identities across a rebuild, nesting of `insert` and `rebuild` -/

theorem insert_core_unfold {m mc : HashMap K V} {key : K} {val : V}
    (h : insert_core m key val = some mc) :
    mc.elem_list_ = m.elem_list_ ++ [⟨m.fresh_, key, val⟩] ∧ mc.cap_ = m.cap_ ∧
      mc.size_ = m.size_ + 1 ∧ mc.fresh_ = m.fresh_ + 1 ∧
      ∃ mc1 li1, insert_loop m.cap_ m.cap_ m.move_cnt_ m.list_iters_ (m.hasher_ key % m.cap_)
        (Iter.node m.fresh_) 1 = some (mc1, li1) ∧ mc.move_cnt_ = mc1 ∧ mc.list_iters_ = li1 := by
  unfold insert_core at h
  split at h
  · exact absurd h (by simp)
  · rename_i mc1 li1 hl
    injection h with h
    subst h
    exact ⟨rfl, rfl, rfl, rfl, mc1, li1, hl, rfl, rfl⟩

/-- The probe loop returns only by storing into a slot that was empty when the loop began. -/
theorem insert_loop_stores (cap : Nat) :
    ∀ (fuel : Nat) (mc : Nat → Nat) (li : Nat → Iter) (pos : Nat) (now : Iter) (step : Nat)
      (mc1 : Nat → Nat) (li1 : Nat → Iter), 1 ≤ step →
      insert_loop cap fuel mc li pos now step = some (mc1, li1) →
      ∃ q, mc q = 0 ∧ mc1 q ≠ 0 := by
  intro fuel
  induction fuel with
  | zero => intro mc li pos now step mc1 li1 _ h; simp [insert_loop] at h
  | succ fuel ih =>
    intro mc li pos now step mc1 li1 hs h
    unfold insert_loop at h
    by_cases hlt : mc pos < step
    · rw [if_pos hlt] at h
      by_cases h0 : mc pos = 0
      · rw [if_pos h0] at h
        injection h with h
        injection h with h1 _
        exact ⟨pos, h0, by rw [← h1, Function.update_same]; omega⟩
      · rw [if_neg h0] at h
        obtain ⟨q, hq0, hq1⟩ := ih _ _ _ _ _ _ _ (by omega) h
        have hqp : q ≠ pos := fun hh => by
          rw [hh, Function.update_same] at hq0; omega
        rw [Function.update_noteq hqp] at hq0
        exact ⟨q, hq0, hq1⟩
    · rw [if_neg hlt] at h
      exact ih _ _ _ _ _ _ _ (by omega) h

section nesting
variable [DecidableEq K]

/-- What a returning call of `insert` did: the part before the load check, then `rebuild`
exactly when `size_ * 2 > cap_`, then `find_pos`. -/
theorem insert_unfold {m m1 : HashMap K V} {key : K} {val : V} {p : Nat}
    (h : insert m key val = some (m1, p)) :
    ∃ mc, insert_core m key val = some mc ∧
      (mc.size_ * 2 > mc.cap_ → rebuild mc = some m1) ∧
      (¬ mc.size_ * 2 > mc.cap_ → m1 = mc) ∧ find_pos m1 key = some p := by
  unfold insert at h
  rw [insert_aux_succ] at h
  cases hcore : insert_core m key val with
  | none => rw [hcore] at h; exact absurd h (by simp)
  | some mc =>
    rw [hcore] at h
    refine ⟨mc, rfl, ?_⟩
    by_cases hc : mc.size_ * 2 > mc.cap_
    · simp only [hc, if_true] at h
      cases hrb : rebuild_with (fun s k v => insert_aux 1 s k v) mc with
      | none => rw [hrb] at h; exact absurd h (by simp)
      | some m2 =>
        rw [hrb] at h
        simp only [Option.map_eq_some'] at h
        obtain ⟨q, hq, heq⟩ := h
        injection heq with h1 h2
        subst h1; subst h2
        exact ⟨fun _ => hrb, fun hn => absurd hc hn, hq⟩
    · simp only [hc, if_false] at h
      simp only [Option.map_eq_some'] at h
      obtain ⟨q, hq, heq⟩ := h
      injection heq with h1 h2
      subst h1; subst h2
      exact ⟨fun hy => absurd hy hc, fun _ => rfl, hq⟩

/-- An `insert` at nesting bound 1, which is what `rebuild` calls, returns only when its load
check is negative: a reinsertion that returned did not rebuild. -/
theorem insert_aux_one {s s1 : HashMap K V} {key : K} {val : V} {p : Nat}
    (h : insert_aux 1 s key val = some (s1, p)) :
    insert_core s key val = some s1 ∧ s1.size_ * 2 ≤ s1.cap_ ∧ s1.cap_ = s.cap_ := by
  rw [insert_aux_succ] at h
  cases hcore : insert_core s key val with
  | none => rw [hcore] at h; exact absurd h (by simp)
  | some sc =>
    rw [hcore] at h
    obtain ⟨hel, hcap, _⟩ := insert_core_unfold hcore
    by_cases hc : sc.size_ * 2 > sc.cap_
    · simp only [hc, if_true] at h
      have hnone : rebuild_with (fun s k v => insert_aux 0 s k v) sc = none := by
        simp only [rebuild_with]
        cases hg : grow_cap_loop (sc.cap_ + 1) (sc.cap_ * 2 + 1) with
        | none => rfl
        | some c =>
          simp only [make_new_arrays, hel]
          cases s.elem_list_ with
          | nil => simp [insert_aux]
          | cons b t => simp [insert_aux]
      rw [hnone] at h
      exact absurd h (by simp)
    · simp only [hc, if_false] at h
      simp only [Option.map_eq_some'] at h
      obtain ⟨q, _, heq⟩ := h
      injection heq with h1 _
      subst h1
      exact ⟨rfl, by omega, hcap⟩

theorem reinsert_ids (d : Nat) :
    ∀ (elems : List (Node K V)) (s s1 : HashMap K V), Inv s →
      2 * (s.size_ + elems.length) ≤ s.cap_ →
      elems.foldlM (fun s nd => (insert_aux (d + 1) s nd.first nd.second).map Prod.fst) s
        = some s1 →
      ∀ nd, nd ∈ s1.elem_list_ → nd ∈ s.elem_list_ ∨ s.fresh_ ≤ nd.id := by
  intro elems
  induction elems with
  | nil =>
    intro s s1 _ _ h nd hnd
    simp only [List.foldlM_nil] at h
    injection h with h
    exact Or.inl (h ▸ hnd)
  | cons a t ih =>
    intro s s1 hI hld h nd hnd
    simp only [List.length_cons] at hld
    obtain ⟨m1, p, hins, hW1, hel, hsz, hcap, _⟩ :=
      insert_aux_small hI (by omega) a.first a.second d
    simp only [List.foldlM_cons, hins, Option.map_some', Option.bind_eq_bind,
      Option.some_bind] at h
    have hfr : s.fresh_ < m1.fresh_ :=
      hW1.1.fresh ⟨s.fresh_, a.first, a.second⟩ (by rw [hel]; simp)
    rcases ih m1 s1 hW1.1 (by rw [hsz, hcap]; omega) h nd hnd with h1 | h1
    · rw [hel] at h1
      rcases List.mem_append.1 h1 with h2 | h2
      · exact Or.inl h2
      · simp only [List.mem_singleton] at h2
        exact Or.inr (by rw [h2])
    · exact Or.inr (by omega)

/-- Every node of the sequence after `rebuild` was allocated by it. -/
theorem rebuild_ids {m m2 : HashMap K V} (hI : Inv m) (hsz : m.size_ ≤ m.cap_)
    (h : rebuild m = some m2) : ∀ nd, nd ∈ m2.elem_list_ → m.fresh_ ≤ nd.id := by
  obtain ⟨c1, hg, _, hle, _, _⟩ := grow_cap_rebuild m.cap_ hI.cap_pos
  have hI0 : Inv (make_new_arrays { m with cap_ := c1, elem_list_ := [] } : HashMap K V) :=
    fresh_table_inv (by show 0 < c1; omega) rfl
  have h2 : m.elem_list_.foldlM
      (fun s nd => (insert_aux (0 + 1) s nd.first nd.second).map Prod.fst)
      (make_new_arrays { m with cap_ := c1, elem_list_ := [] }) = some m2 := by
    simp only [rebuild, rebuild_with, hg] at h
    exact h
  intro nd hnd
  rcases reinsert_ids 0 m.elem_list_ _ m2 hI0
    (by show 2 * (0 + m.elem_list_.length) ≤ c1; rw [← hI.size_eq]; omega) h2 nd hnd with h3 | h3
  · exact absurd h3 (by simp [make_new_arrays])
  · exact h3

/-- After an `insert` that rebuilds, every node of the sequence is newer than the nodes the
sequence held before the call. -/
theorem insert_rebuild_ids {m m1 : HashMap K V} {key : K} {val : V} {p : Nat} (hW : WF m)
    (hld : m.cap_ < 2 * (m.size_ + 1)) (h : insert m key val = some (m1, p)) :
    ∀ nd, nd ∈ m1.elem_list_ → m.fresh_ < nd.id := by
  obtain ⟨mc, hcore, hrb, _, _⟩ := insert_unfold h
  obtain ⟨mc2, hcore2, hI1, _, hsz, hcap, _, hfr⟩ := insert_core_spec hW.1 hW.size_lt key val
  rw [hcore] at hcore2
  injection hcore2 with heq
  subst heq
  have h2 := hW.size_lt
  have hids := rebuild_ids hI1 (by omega) (hrb (by omega))
  intro nd hnd
  have := hids nd hnd
  omega

end nesting

/-! ## Capacities and displacements -/

theorem disp_arith {cap i x : Nat} (hi : i < cap) (hx : x < cap) :
    ((i + x) % cap + cap - i) % cap = x := by
  by_cases h : i + x < cap
  · rw [Nat.mod_eq_of_lt h, show i + x + cap - i = x + cap by omega, Nat.add_mod_right,
      Nat.mod_eq_of_lt hx]
  · have h1 : (i + x) % cap = i + x - cap := by
      rw [Nat.mod_eq_sub_mod (show i + x ≥ cap by omega)]
      exact Nat.mod_eq_of_lt (by omega)
    rw [h1, show i + x - cap + cap - i = x by omega, Nat.mod_eq_of_lt hx]

/-- A node stored `x` probe steps past its ideal slot has displacement `x + 1`. -/
theorem displacement_eq (m : HashMap K V) (key : K) {x : Nat} (hx : x < m.cap_) :
    displacement m key ((m.hasher_ key + x) % m.cap_) = x + 1 := by
  have hc : 0 < m.cap_ := by omega
  unfold displacement
  rw [← Nat.mod_add_mod, disp_arith (Nat.mod_lt _ hc) hx]

/-- On a well-formed state every counter is below the capacity. -/
theorem counter_lt_cap {m : HashMap K V} (hW : WF m) {p : Nat} (hp : p < m.cap_) :
    m.move_cnt_ p < m.cap_ := by
  obtain ⟨e, he, hem⟩ := hW.1.free_slot hW.size_lt
  have hch := hW.1.table.chain hW.1.cap_pos e (dist m.cap_ e p)
  rw [add_dist_mod he hp, Nat.mod_eq_of_lt he, hem] at hch
  have := dist_lt he hp
  omega

section caps
variable [DecidableEq K]

theorem insert_cap_step {m m1 : HashMap K V} {key : K} {val : V} {p : Nat} (hW : WF m)
    (h : insert m key val = some (m1, p)) :
    WF m1 ∧ (11 ≤ m.cap_ → 11 ≤ m1.cap_) ∧
      (Nat.Prime m.cap_ ∧ m.cap_ % 2 = 1 → Nat.Prime m1.cap_ ∧ m1.cap_ % 2 = 1) := by
  obtain ⟨m2, p2, hins, hW2, _, _, _, _, hsmall, hbig⟩ := insert_aux_spec hW key val 0
  have heq : insert m key val = some (m2, p2) := hins
  rw [h] at heq
  injection heq with heq
  injection heq with h1 _
  subst h1
  refine ⟨hW2, ?_, ?_⟩
  · intro h11
    by_cases hld : 2 * (m.size_ + 1) ≤ m.cap_
    · rw [(hsmall hld).1]; exact h11
    · obtain ⟨c1, hg, _, hle, _, _⟩ := grow_cap_rebuild m.cap_ hW.1.cap_pos
      have := hbig (by omega)
      rw [hg] at this
      injection this with this
      omega
  · intro hp
    by_cases hld : 2 * (m.size_ + 1) ≤ m.cap_
    · rw [(hsmall hld).1]; exact hp
    · obtain ⟨c1, hg, hpr, _, hodd, _⟩ := grow_cap_rebuild m.cap_ hW.1.cap_pos
      have := hbig (by omega)
      rw [hg] at this
      injection this with this
      rw [← this]
      exact ⟨hpr, hodd⟩

theorem insert_all_cap_step :
    ∀ (l : List (K × V)) (m m1 : HashMap K V), WF m → insert_all m l = some m1 →
      (11 ≤ m.cap_ → 11 ≤ m1.cap_) ∧
      (Nat.Prime m.cap_ ∧ m.cap_ % 2 = 1 → Nat.Prime m1.cap_ ∧ m1.cap_ % 2 = 1) := by
  intro l
  induction l with
  | nil =>
    intro m m1 _ h
    simp only [insert_all, List.foldlM_nil] at h
    injection h with h
    subst h
    exact ⟨id, id⟩
  | cons a t ih =>
    intro m m1 hW h
    obtain ⟨m2, p, hins, _⟩ := insert_spec hW a.1 a.2
    obtain ⟨hW2, h11, hpr⟩ := insert_cap_step hW hins
    simp only [insert_all, List.foldlM_cons, hins, Option.map_some', Option.bind_eq_bind,
      Option.some_bind] at h
    obtain ⟨h11b, hprb⟩ := ih m2 m1 hW2 h
    exact ⟨fun hh => h11b (h11 hh), fun hh => hprb (hpr hh)⟩

end caps

/-! ## The table of a copy -/

/-- On a state with the invariants, the occupied slots are as many as the nodes. -/
theorem occupied_card {m : HashMap K V} (hI : Inv m) :
    ((Finset.range m.cap_).filter (fun p => m.move_cnt_ p ≠ 0)).card = m.elem_list_.length := by
  have himg : ((Finset.range m.cap_).filter (fun p => m.move_cnt_ p ≠ 0)).image m.list_iters_
      = (m.elem_list_.map (fun nd => Iter.node nd.id)).toFinset := by
    ext it
    simp only [Finset.mem_image, Finset.mem_filter, Finset.mem_range, List.mem_toFinset,
      List.mem_map]
    constructor
    · rintro ⟨p, ⟨hp, ho⟩, hit⟩
      obtain ⟨nd, hnd, hl, _⟩ := hI.table.slot p hp ho
      exact ⟨nd, hnd, by rw [← hit, hl]⟩
    · rintro ⟨nd, hnd, hit⟩
      obtain ⟨p, hp, ho, hl⟩ := hI.cover nd hnd
      exact ⟨p, ⟨hp, ho⟩, by rw [hl, hit]⟩
  have hinj : Set.InjOn m.list_iters_
      (((Finset.range m.cap_).filter (fun p => m.move_cnt_ p ≠ 0)) : Finset Nat) := by
    intro p hp q hq hpq
    simp only [Finset.coe_filter, Finset.mem_range, Set.mem_setOf_eq] at hp hq
    exact hI.table.inj p q hp.1 hq.1 hp.2 hq.2 hpq
  have hnd2 : (m.elem_list_.map (fun nd => Iter.node nd.id)).Nodup := by
    have := List.Nodup.map (f := Iter.node) (fun a b hab => by injection hab) hI.nodup
    rwa [List.map_map] at this
  rw [← Finset.card_image_of_injOn hinj, himg, List.toFinset_card_of_nodup hnd2,
    List.length_map]

section copy_table
variable [DecidableEq K]

/-- The copy constructor is: make an empty table of `max(11, 3 * size)` slots, then insert the
pairs of `other` in iteration order. -/
theorem copy_ctor_eq_insert_all (other : HashMap K V) :
    copy_ctor other
      = insert_all (HashMap.mk_cap other.hasher_ (max 11 (3 * other.size))) other.entries := by
  unfold copy_ctor insert_all HashMap.entries
  rw [List.foldlM_map]
  have h : (3 * other.size) = other.size_ * 3 := by
    show 3 * other.size_ = other.size_ * 3
    omega
  rw [h]
  rfl

/-- Lookups on two well-formed states with the same pairs: a key absent from one is absent from
the other, a present key is found in both, with the same value when it occurs once. -/
theorem at_of_same_entries {m other : HashMap K V} (hm : WF m) (ho : WF other)
    (hent : m.entries = other.entries) (k : K) :
    ((∀ nd, nd ∈ other.elem_list_ → nd.first ≠ k) →
      at_ m k = some (Except.error "Element not found")) ∧
    ((∃ nd, nd ∈ other.elem_list_ ∧ nd.first = k) →
      ∃ w, (k, w) ∈ other.entries ∧ at_ m k = some (Except.ok w)) ∧
    ((other.elem_list_.map Node.first).count k ≤ 1 → at_ m k = at_ other k) := by
  have hback : ∀ nd, nd ∈ m.elem_list_ → nd.first = k →
      ∃ x, x ∈ other.elem_list_ ∧ x.first = k ∧ x.second = nd.second := by
    intro nd hnd hk
    have h1 : (k, nd.second) ∈ m.entries := mem_entries.2 ⟨nd, hnd, hk, rfl⟩
    rw [hent] at h1
    exact mem_entries.1 h1
  have hforth : ∀ nd, nd ∈ other.elem_list_ → nd.first = k →
      ∃ x, x ∈ m.elem_list_ ∧ x.first = k := by
    intro nd hnd hk
    have h1 : (k, nd.second) ∈ other.entries := mem_entries.2 ⟨nd, hnd, hk, rfl⟩
    rw [← hent] at h1
    obtain ⟨x, hx, hxk, _⟩ := mem_entries.1 h1
    exact ⟨x, hx, hxk⟩
  have habs : (∀ nd, nd ∈ other.elem_list_ → nd.first ≠ k) →
      at_ m k = some (Except.error "Element not found") := by
    intro hno
    refine (at_wf hm k).2 (fun nd hnd hk => ?_)
    obtain ⟨x, hx, hxk, _⟩ := hback nd hnd hk
    exact hno x hx hxk
  have hpres : (∃ nd, nd ∈ other.elem_list_ ∧ nd.first = k) →
      ∃ nd1 x, nd1 ∈ m.elem_list_ ∧ x ∈ other.elem_list_ ∧ x.first = k ∧
        x.second = nd1.second ∧ at_ m k = some (Except.ok nd1.second) := by
    rintro ⟨nd, hnd, hk⟩
    obtain ⟨nd1, hnd1, hk1, hat1⟩ := (at_wf hm k).1 (hforth nd hnd hk)
    obtain ⟨x, hx, hxk, hxv⟩ := hback nd1 hnd1 hk1
    exact ⟨nd1, x, hnd1, hx, hxk, hxv, hat1⟩
  refine ⟨habs, fun hex => ?_, fun hone => ?_⟩
  · obtain ⟨nd1, x, _, hx, hxk, hxv, hat1⟩ := hpres hex
    exact ⟨nd1.second, mem_entries.2 ⟨x, hx, hxk, hxv⟩, hat1⟩
  · by_cases hex : ∃ nd, nd ∈ other.elem_list_ ∧ nd.first = k
    · obtain ⟨nd1, x, _, hx, hxk, hxv, hat1⟩ := hpres hex
      obtain ⟨nd0, hnd0, hk0, hat0⟩ := (at_wf ho k).1 hex
      have : x = nd0 := unique_of_count_le_one hone x nd0 hx hnd0 hxk hk0
      rw [hat1, hat0, ← hxv, this]
    · have hno : ∀ nd, nd ∈ other.elem_list_ → nd.first ≠ k :=
        fun nd hnd hk => hex ⟨nd, hnd, hk⟩
      rw [habs hno, (at_wf ho k).2 hno]

end copy_table

/-! ## Reachability of the concrete maps -/

theorem Reachable.insert_all [DecidableEq K] [Inhabited V] :
    ∀ (l : List (K × V)) {m m1 : HashMap K V}, Reachable m → insert_all m l = some m1 →
      Reachable m1 := by
  intro l
  induction l with
  | nil =>
    intro m m1 hr h
    simp only [Hashmap.insert_all, List.foldlM_nil] at h
    injection h with h
    exact h ▸ hr
  | cons a t ih =>
    intro m m1 hr h
    simp only [Hashmap.insert_all, List.foldlM_cons, Option.bind_eq_bind] at h
    cases hins : Hashmap.insert m a.1 a.2 with
    | none => rw [hins] at h; simp at h
    | some r =>
      rw [hins] at h
      simp only [Option.map_some', Option.some_bind] at h
      exact ih (Reachable.insert a.1 a.2 hr
        (show Hashmap.insert m a.1 a.2 = some (r.1, r.2) from hins)) h

theorem demo_a_reachable : Reachable demo_a :=
  Reachable.insert 10 1 (Reachable.init demo_hash)
    (rfl : insert demo_empty 10 1 = some (demo_a, 10))

theorem demo_ab_reachable : Reachable demo_ab :=
  Reachable.insert 21 2 demo_a_reachable (rfl : insert demo_a 21 2 = some (demo_ab, 0))

theorem demo_abc_reachable : Reachable demo_abc :=
  Reachable.insert 32 3 demo_ab_reachable (rfl : insert demo_ab 32 3 = some (demo_abc, 1))

theorem demo_dup_reachable : Reachable demo_dup :=
  Reachable.insert 10 5 demo_a_reachable (rfl : insert demo_a 10 5 = some (demo_dup, 10))

theorem demo_five_reachable : Reachable demo_five :=
  Reachable.insert_all _ (Reachable.init demo_hash)
    (rfl : insert_all demo_empty [(0, 0), (11, 1), (22, 2), (33, 3), (44, 4)] = some demo_five)

theorem demo_four_reachable : Reachable demo_four :=
  Reachable.insert_all _ (Reachable.init demo_hash)
    (rfl : insert_all demo_empty [(0, 7), (1, 8), (1, 9), (5, 5)] = some demo_four)

theorem demo_copy_built : Built true demo_copy :=
  Built.copy rfl (demo_four_reachable.built true) (rfl : copy_ctor demo_four = some demo_copy)

/-! ## Contract theorems -/

section claims
variable [DecidableEq K] [Inhabited V]

/-- C1: on every reachable state, if the backing sequence holds an entry with key `k` then
`find_pos` stops at an occupied slot whose node carries `k` (the probe meets no empty slot
first) and `find(k)` returns the iterator of that node, which is the only candidate when `k`
occurs once; if no entry has key `k`, `find_pos` stops at an empty slot and `find(k)` returns
`end()`. -/
theorem find_correct {m : HashMap K V} (hr : Reachable m) (k : K) :
    ((∃ nd, nd ∈ m.elem_list_ ∧ nd.first = k) →
      ∃ p nd, find_pos m k = some p ∧ p < m.cap_ ∧ m.move_cnt_ p ≠ 0 ∧
        deref m.elem_list_ (m.list_iters_ p) = some nd ∧
        nd ∈ m.elem_list_ ∧ nd.first = k ∧ find m k = some (Iter.node nd.id) ∧
        ((m.elem_list_.map Node.first).count k = 1 →
          ∀ x, x ∈ m.elem_list_ → x.first = k → x = nd)) ∧
    ((∀ nd, nd ∈ m.elem_list_ → nd.first ≠ k) →
      ∃ p, find_pos m k = some p ∧ p < m.cap_ ∧ m.move_cnt_ p = 0 ∧
        find m k = some Iter.past_end) := by
  have hW := hr.wf
  obtain ⟨p, hfp, hp, habs, hhit, hocc⟩ := find_pos_wf hW k
  refine ⟨fun hex => ?_, (find_wf hW k).2⟩
  obtain ⟨nd, hnd, hk, hli, hd⟩ := hhit (hocc hex)
  refine ⟨p, nd, hfp, hp, hocc hex, hd, hnd, hk, ?_, ?_⟩
  · simp only [find, hfp, hocc hex, if_false, hli]
  · intro hc x hx hxk
    exact unique_of_count_le_one (le_of_eq hc) x nd hx hnd hxk hk

/-- Instance of `find_correct` on the map holding the keys 10, 21, 32, which all hash to slot 10:
the absent key 43 gives `end()`, the key 32 gives its node. -/
theorem find_correct_witness :
    Reachable demo_abc ∧ (∀ nd, nd ∈ demo_abc.elem_list_ → nd.first ≠ 43) ∧
      (∃ nd, nd ∈ demo_abc.elem_list_ ∧ nd.first = 32) ∧
      find demo_abc 43 = some Iter.past_end ∧ find demo_abc 32 = some (Iter.node 2) := by
  have habs : ∀ nd, nd ∈ demo_abc.elem_list_ → nd.first ≠ 43 := by decide
  have hpres : ∃ nd, nd ∈ demo_abc.elem_list_ ∧ nd.first = 32 := ⟨⟨2, 32, 3⟩, by decide, rfl⟩
  obtain ⟨_, _, _, _, h1⟩ := (find_correct demo_abc_reachable 43).2 habs
  obtain ⟨_, nd, _, _, _, _, hnd, hk, h2, huniq⟩ := (find_correct demo_abc_reachable 32).1 hpres
  have hnd2 : (⟨2, 32, 3⟩ : Node Nat Nat) = nd := huniq (by decide) ⟨2, 32, 3⟩ (by decide) rfl
  refine ⟨demo_abc_reachable, habs, hpres, h1, ?_⟩
  rw [h2, ← hnd2]

/-- C2: for every hash function and every list of pairs with pairwise distinct keys, inserting
the pairs one after another into a default-constructed map returns a map whose `size()` is the
length of the list and in which `at(k)` returns `v` for every pair `(k, v)` of the list. -/
theorem insert_all_distinct (hasher : K → Nat) (l : List (K × V))
    (hd : (l.map Prod.fst).Nodup) :
    ∃ m, insert_all (HashMap.mk_default hasher) l = some m ∧ m.size = l.length ∧
      ∀ k v, (k, v) ∈ l → at_ m k = some (Except.ok v) := by
  obtain ⟨m, hall, hW, hent, hsz, _⟩ := insert_all_spec l _ (mk_default_wf hasher)
  have hent2 : m.entries = l := by
    rw [hent]; simp [HashMap.entries, HashMap.mk_default, HashMap.mk_cap, init, make_new_arrays]
  refine ⟨m, hall, ?_, ?_⟩
  · show m.size_ = l.length
    rw [hsz]
    show 0 + l.length = l.length
    omega
  · intro k v hkv
    rw [← hent2] at hkv
    obtain ⟨nd, hnd, hk, hv⟩ := mem_entries.1 hkv
    obtain ⟨nd2, hnd2, hk2, hat⟩ := (at_wf hW k).1 ⟨nd, hnd, hk⟩
    have hkeys : (m.elem_list_.map Node.first).Nodup := by
      have : m.elem_list_.map Node.first = l.map Prod.fst := by
        rw [← hent2]; simp [HashMap.entries, Function.comp_def]
      rw [this]; exact hd
    have : nd2 = nd :=
      unique_of_count_le_one (List.nodup_iff_count_le_one.1 hkeys k) nd2 nd hnd2 hnd hk2 hk
    rw [hat, this, hv]

/-- Instance of `insert_all_distinct`: the keys 0..999 with values `2 * k`. -/
theorem insert_all_distinct_witness :
    (((List.range 1000).map (fun k => (k, k * 2))).map Prod.fst).Nodup ∧
      ∃ m, insert_all (HashMap.mk_default demo_hash) ((List.range 1000).map (fun k => (k, k * 2)))
          = some m ∧ m.size = 1000 ∧ ∀ k, k < 1000 → at_ m k = some (Except.ok (k * 2)) := by
  have hd : (((List.range 1000).map (fun k => (k, k * 2))).map Prod.fst).Nodup := by
    rw [List.map_map]
    have : (Prod.fst ∘ fun k : Nat => (k, k * 2)) = id := rfl
    rw [this, List.map_id]
    exact List.nodup_range 1000
  obtain ⟨m, h1, h2, h3⟩ := insert_all_distinct demo_hash _ hd
  refine ⟨hd, m, h1, by simpa using h2, fun k hk => h3 k (k * 2) ?_⟩
  exact List.mem_map.2 ⟨k, List.mem_range.2 hk, rfl⟩

/-- C3 fails when the key is already present: on the reachable map holding `(10, 1)`,
`insert(10, 5)` returns and `at(10)` afterwards returns `1`, not `5`. -/
theorem insert_at_counterexample :
    Reachable demo_a ∧ demo_a.entries = [(10, 1)] ∧
      (insert demo_a 10 5).map (fun r => at_ r.1 10) = some (some (Except.ok 1)) ∧
      ¬ (∀ m1 p, insert demo_a 10 5 = some (m1, p) → at_ m1 10 = some (Except.ok 5)) := by
  refine ⟨demo_a_reachable, rfl, rfl, fun h => ?_⟩
  have h1 : at_ demo_dup 10 = some (Except.ok 5) := h demo_dup 10 rfl
  have h2 : at_ demo_dup 10 = some (Except.ok 1) := rfl
  rw [h2] at h1
  injection h1 with h3
  injection h3 with h4
  exact absurd h4 (by decide)

/-- C3 as amended: on every reachable map `insert(k, v)` returns, and afterwards `at(k)` does not
throw and returns the value of an entry with key `k`; it returns `v` when no entry of the
backing sequence had key `k` before the call. -/
theorem insert_then_at {m : HashMap K V} (hr : Reachable m) (k : K) (v : V) :
    ∃ m1 p, insert m k v = some (m1, p) ∧
      (∃ w, (k, w) ∈ m1.entries ∧ at_ m1 k = some (Except.ok w)) ∧
      ((∀ nd, nd ∈ m.elem_list_ → nd.first ≠ k) → at_ m1 k = some (Except.ok v)) := by
  obtain ⟨m1, p, hins, hW1, hent, _⟩ := insert_spec hr.wf k v
  have hmem : (k, v) ∈ m1.entries := by rw [hent]; simp
  obtain ⟨nd0, hnd0, hk0, _⟩ := mem_entries.1 hmem
  obtain ⟨nd, hnd, hk, hat⟩ := (at_wf hW1 k).1 ⟨nd0, hnd0, hk0⟩
  refine ⟨m1, p, hins, ⟨nd.second, mem_entries.2 ⟨nd, hnd, hk, rfl⟩, hat⟩, fun habs => ?_⟩
  have h1 : (k, nd.second) ∈ m1.entries := mem_entries.2 ⟨nd, hnd, hk, rfl⟩
  rw [hent] at h1
  rcases List.mem_append.1 h1 with h2 | h2
  · obtain ⟨x, hx, hxk, _⟩ := mem_entries.1 h2
    exact absurd hxk (habs x hx)
  · simp only [List.mem_singleton, Prod.mk.injEq] at h2
    rw [hat, h2.2]

/-- Instance of `insert_then_at`: inserting the absent key 21 into the map holding key 10. -/
theorem insert_then_at_witness :
    Reachable demo_a ∧ (∀ nd, nd ∈ demo_a.elem_list_ → nd.first ≠ 21) ∧
      ∃ m1 p, insert demo_a 21 2 = some (m1, p) ∧ at_ m1 21 = some (Except.ok 2) := by
  have habs : ∀ nd, nd ∈ demo_a.elem_list_ → nd.first ≠ 21 := by decide
  obtain ⟨m1, p, h1, _, h2⟩ := insert_then_at demo_a_reachable 21 2
  exact ⟨demo_a_reachable, habs, m1, p, h1, h2 habs⟩

/-- C4 fails when the key occurs twice: on the reachable map holding `(10, 1)` and `(10, 5)`,
`erase(10)` returns and `find(10)` afterwards returns the iterator of the node of `(10, 5)`,
not `end()`. -/
theorem erase_find_counterexample :
    Reachable demo_dup ∧ demo_dup.entries = [(10, 1), (10, 5)] ∧
      (erase demo_dup 10).map (fun s => (s.entries, find s 10))
        = some ([(10, 5)], some (Iter.node 1)) ∧
      ¬ (∀ m1, erase demo_dup 10 = some m1 → find m1 10 = some Iter.past_end) := by
  refine ⟨demo_dup_reachable, rfl, rfl, fun h => ?_⟩
  have h1 : (erase demo_dup 10).bind (fun s => find s 10) = some (Iter.node 1) := rfl
  cases he : erase demo_dup 10 with
  | none => rw [he] at h1; exact absurd h1 (by simp)
  | some m1 =>
    rw [he] at h1
    have h2 := h m1 he
    simp only [Option.some_bind] at h1
    rw [h2] at h1
    injection h1 with h3
    exact absurd h3 (by simp)

/-- C4 as amended: on every reachable map in which at most one entry has key `k`, `erase(k)`
returns and `find(k)` afterwards returns `end()`. -/
theorem erase_then_find {m : HashMap K V} (hr : Reachable m) (k : K)
    (hone : (m.elem_list_.map Node.first).count k ≤ 1) :
    ∃ m1, erase m k = some m1 ∧ find m1 k = some Iter.past_end := by
  obtain ⟨m1, her, hW1, _, _, habs, hpres⟩ := erase_spec hr.wf k
  refine ⟨m1, her, ?_⟩
  by_cases hex : ∃ nd, nd ∈ m.elem_list_ ∧ nd.first = k
  · obtain ⟨l1, a, l2, hel, hak, hel1, _⟩ := hpres hex
    obtain ⟨_, _, _, _, hf⟩ := (find_wf hW1 k).2 (by
      intro nd hnd hk
      rw [hel] at hone
      simp only [List.map_append, List.map_cons, List.count_append, List.count_cons, hak,
        beq_self_eq_true, if_true] at hone
      have hz : (l1.map Node.first).count k = 0 ∧ (l2.map Node.first).count k = 0 := by omega
      rw [hel1] at hnd
      rcases List.mem_append.1 hnd with h1 | h1
      · exact (List.count_eq_zero.1 hz.1) (hk ▸ List.mem_map_of_mem Node.first h1)
      · exact (List.count_eq_zero.1 hz.2) (hk ▸ List.mem_map_of_mem Node.first h1))
    exact hf
  · have hno : ∀ nd, nd ∈ m.elem_list_ → nd.first ≠ k := fun nd hnd hk => hex ⟨nd, hnd, hk⟩
    rw [habs hno]
    obtain ⟨_, _, _, _, hf⟩ := (find_wf hr.wf k).2 hno
    exact hf

/-- Instance of `erase_then_find`: erasing the key 21, which occurs once. -/
theorem erase_then_find_witness :
    Reachable demo_abc ∧ (demo_abc.elem_list_.map Node.first).count 21 ≤ 1 ∧
      ∃ m1, erase demo_abc 21 = some m1 ∧ find m1 21 = some Iter.past_end :=
  ⟨demo_abc_reachable, by decide, erase_then_find demo_abc_reachable 21 (by decide)⟩

/-- C5: on every reachable map, the call `at(k)` throws `std::out_of_range` exactly when no
entry of the backing sequence has key `k`, and otherwise returns the value of an entry with key
`k`; in both cases the state after the call (size, capacity, probe table, backing sequence) is
the state before it. -/
theorem at_correct {m : HashMap K V} (hr : Reachable m) (k : K) :
    (at_call m k = some (Except.error "Element not found", m) ↔
      ∀ nd, nd ∈ m.elem_list_ → nd.first ≠ k) ∧
    ((∃ nd, nd ∈ m.elem_list_ ∧ nd.first = k) →
      ∃ nd, nd ∈ m.elem_list_ ∧ nd.first = k ∧ at_call m k = some (Except.ok nd.second, m)) ∧
    (∀ r m1, at_call m k = some (r, m1) → m1 = m) := by
  have h := at_wf hr.wf k
  refine ⟨⟨fun herr nd hnd hk => ?_, fun hno => ?_⟩, fun hex => ?_, fun r m1 hcall => ?_⟩
  · obtain ⟨nd2, _, _, hat⟩ := h.1 ⟨nd, hnd, hk⟩
    simp only [at_call, hat, Option.map_some'] at herr
    injection herr with h1
    injection h1 with h2 _
    exact absurd h2 (by simp)
  · simp only [at_call, h.2 hno, Option.map_some']
  · obtain ⟨nd, hnd, hk, hat⟩ := h.1 hex
    exact ⟨nd, hnd, hk, by simp only [at_call, hat, Option.map_some']⟩
  · simp only [at_call, Option.map_eq_some'] at hcall
    obtain ⟨_, _, heq⟩ := hcall
    injection heq with _ h2
    exact h2.symm

/-- Instance of `at_correct` on the map holding the keys 10, 21, 32: `at(43)` throws, `at(21)`
returns 2. -/
theorem at_correct_witness :
    Reachable demo_abc ∧ at_call demo_abc 43 = some (Except.error "Element not found", demo_abc) ∧
      at_call demo_abc 21 = some (Except.ok 2, demo_abc) := by
  have h43 := ((at_correct demo_abc_reachable 43).1).2 (by decide)
  exact ⟨demo_abc_reachable, h43, rfl⟩

/-- C6: on every reachable map, if no entry has key `k` then `m[k]` returns, the iteration
sequence afterwards is the old one followed by `(k, ValueType())`, the returned reference is to
the value of the last node of the sequence, which carries `k` and the default value (also after
a rebuild), and `size()` has grown by one; if an entry has key `k` then `m[k]` returns a
reference to the value of a node of the sequence carrying `k` and the state is unchanged. -/
theorem index_find_or_insert {m : HashMap K V} (hr : Reachable m) (k : K) :
    ((∀ nd, nd ∈ m.elem_list_ → nd.first ≠ k) →
      ∃ m1 nd, index m k = some (m1, nd) ∧ m1.entries = m.entries ++ [(k, default)] ∧
        m1.elem_list_.getLast? = some nd ∧ nd.first = k ∧ nd.second = default ∧
        m1.size = m.size + 1) ∧
    ((∃ nd, nd ∈ m.elem_list_ ∧ nd.first = k) →
      ∃ nd, index m k = some (m, nd) ∧ nd ∈ m.elem_list_ ∧ nd.first = k) := by
  have hW := hr.wf
  obtain ⟨p, hfp, hp, habs, hhit, hocc⟩ := find_pos_wf hW k
  refine ⟨fun hno => ?_, fun hex => ?_⟩
  · have h0 := habs hno
    obtain ⟨m1, p1, hins, hW1, hent, hsz, _, hfp1⟩ := insert_spec hW k (default : V)
    obtain ⟨p2, hfp2, _, _, hhit2, hocc2⟩ := find_pos_wf hW1 k
    rw [hfp1] at hfp2
    injection hfp2 with hpp
    subst hpp
    have hmem : (k, (default : V)) ∈ m1.entries := by rw [hent]; simp
    obtain ⟨nd0, hnd0, hk0, _⟩ := mem_entries.1 hmem
    obtain ⟨nd, hnd, hk, _, hd⟩ := hhit2 (hocc2 ⟨nd0, hnd0, hk0⟩)
    obtain ⟨l1, l2, hel, hl1, hl2⟩ := List.map_eq_append_iff.1 hent
    obtain ⟨x, l3, hl2e, hx, hl3⟩ := List.map_eq_cons_iff.1 hl2
    have hl3n : l3 = [] := by simpa using hl3
    subst hl3n
    subst hl2e
    have hxn : nd = x := by
      rw [hel] at hnd
      rcases List.mem_append.1 hnd with h1 | h1
      · have : (nd.first, nd.second) ∈ m.entries := by
          rw [← hl1]; exact List.mem_map_of_mem _ h1
        obtain ⟨y, hy, hyk, _⟩ := mem_entries.1 this
        exact absurd (hyk.trans hk) (hno y hy)
      · simpa using h1
    refine ⟨m1, nd, ?_, hent, ?_, hk, ?_, hsz⟩
    · simp only [index, hfp, h0, if_true, hins, hd, Option.map_some']
    · rw [hel, hxn, List.getLast?_concat]
    · rw [hxn]
      injection hx
  · obtain ⟨nd, hnd, hk, _, hd⟩ := hhit (hocc hex)
    exact ⟨nd, by simp only [index, hfp, hocc hex, if_false, hd, Option.map_some'], hnd, hk⟩

/-- Instance of `index_find_or_insert` on the map holding the keys 10, 21, 32: `m[43]` appends
`(43, 0)`, `m[21]` leaves the map as it is. -/
theorem index_find_or_insert_witness :
    Reachable demo_abc ∧ (∀ nd, nd ∈ demo_abc.elem_list_ → nd.first ≠ 43) ∧
      (∃ nd, nd ∈ demo_abc.elem_list_ ∧ nd.first = 21) ∧
      (∃ m1 nd, index demo_abc 43 = some (m1, nd) ∧
        m1.entries = [(10, 1), (21, 2), (32, 3), (43, 0)] ∧ nd.second = 0 ∧ m1.size = 4) ∧
      (∃ nd, index demo_abc 21 = some (demo_abc, nd) ∧ nd.first = 21) := by
  have habs : ∀ nd, nd ∈ demo_abc.elem_list_ → nd.first ≠ 43 := by decide
  have hpres : ∃ nd, nd ∈ demo_abc.elem_list_ ∧ nd.first = 21 := ⟨⟨1, 21, 2⟩, by decide, rfl⟩
  obtain ⟨m1, nd, h1, h2, _, _, h3, h4⟩ := (index_find_or_insert demo_abc_reachable 43).1 habs
  obtain ⟨nd2, h5, _, h6⟩ := (index_find_or_insert demo_abc_reachable 21).2 hpres
  exact ⟨demo_abc_reachable, habs, hpres, ⟨m1, nd, h1, h2, h3, h4⟩, ⟨nd2, h5, h6⟩⟩

/-- C7: on every reachable map with iteration sequence `s`, for every key `k` (present or not)
and value `v`, `insert(k, v)` returns, the iteration sequence afterwards is `s` followed by
`(k, v)`, and `size()` has grown by one; this covers the inserts that rebuild. -/
theorem insert_appends {m : HashMap K V} (hr : Reachable m) (k : K) (v : V) :
    ∃ m1 p, insert m k v = some (m1, p) ∧ m1.entries = m.entries ++ [(k, v)] ∧
      m1.size = m.size + 1 := by
  obtain ⟨m1, p, hins, _, hent, hsz, _⟩ := insert_spec hr.wf k v
  exact ⟨m1, p, hins, hent, hsz⟩

/-- Instance of `insert_appends`: the sixth insert at capacity 11, of a key already present,
rebuilds to capacity 23 and appends. -/
theorem insert_appends_witness :
    Reachable demo_five ∧ demo_five.cap_ = 11 ∧
      ∃ m1 p, insert demo_five 0 7 = some (m1, p) ∧ m1.cap_ = 23 ∧
        m1.entries = [(0, 0), (11, 1), (22, 2), (33, 3), (44, 4), (0, 7)] ∧ m1.size = 6 := by
  obtain ⟨m1, p, h1, h2, h3⟩ := insert_appends demo_five_reachable 0 7
  refine ⟨demo_five_reachable, rfl, m1, p, h1, ?_, h2, h3⟩
  have h4 : (insert demo_five 0 7).map (fun r => r.1.cap_) = some 23 := rfl
  rw [h1] at h4
  exact Option.some.inj h4

/-- C8: on every reachable map, for every key `k` that occurs in the backing sequence,
`erase(k)` returns, the sequence afterwards is the old one with exactly one node removed, that
node carries `k`, the other nodes are unchanged and keep their order, and `size()` has decreased
by one. -/
theorem erase_removes_one {m : HashMap K V} (hr : Reachable m) (k : K)
    (hk : ∃ nd, nd ∈ m.elem_list_ ∧ nd.first = k) :
    ∃ m1 l1 a l2, erase m k = some m1 ∧ m.elem_list_ = l1 ++ a :: l2 ∧ a.first = k ∧
      m1.elem_list_ = l1 ++ l2 ∧ m1.size + 1 = m.size := by
  obtain ⟨m1, her, _, _, _, _, hpres⟩ := erase_spec hr.wf k
  obtain ⟨l1, a, l2, h1, h2, h3, h4⟩ := hpres hk
  exact ⟨m1, l1, a, l2, her, h1, h2, h3, h4⟩

/-- Instance of `erase_removes_one`: after inserting 10, 21, 32, erasing 21 leaves 10, 32, and
inserting 21 again gives 10, 32, 21. -/
theorem erase_removes_one_witness :
    Reachable demo_abc ∧ (∃ nd, nd ∈ demo_abc.elem_list_ ∧ nd.first = 21) ∧
      (∃ m1 l1 a l2, erase demo_abc 21 = some m1 ∧ demo_abc.elem_list_ = l1 ++ a :: l2 ∧
        a.first = 21 ∧ m1.elem_list_ = l1 ++ l2 ∧ m1.size + 1 = demo_abc.size) ∧
      demo_abc.entries = [(10, 1), (21, 2), (32, 3)] ∧
      (erase demo_abc 21).map HashMap.entries = some [(10, 1), (32, 3)] ∧
      ((erase demo_abc 21).bind (fun s => insert s 21 4)).map (fun r => r.1.entries)
        = some [(10, 1), (32, 3), (21, 4)] :=
  ⟨demo_abc_reachable, ⟨⟨1, 21, 2⟩, by decide, rfl⟩,
    erase_removes_one demo_abc_reachable 21 ⟨⟨1, 21, 2⟩, by decide, rfl⟩, rfl, rfl, rfl⟩

/-- C9: on every reachable map, for every key `k` that does not occur in the backing sequence,
`erase(k)` returns the state it was called on (size, capacity, probe table and sequence are
those of before), and so does a second `erase(k)`. -/
theorem erase_absent_noop {m : HashMap K V} (hr : Reachable m) (k : K)
    (hk : ∀ nd, nd ∈ m.elem_list_ → nd.first ≠ k) :
    erase m k = some m ∧ (erase m k).bind (fun s => erase s k) = some m := by
  obtain ⟨m1, her, _, _, _, habs, _⟩ := erase_spec hr.wf k
  have h1 : erase m k = some m := by rw [her, habs hk]
  exact ⟨h1, by rw [h1]; exact h1⟩

/-- Instance of `erase_absent_noop`: erasing the absent key 43, once and twice. -/
theorem erase_absent_noop_witness :
    Reachable demo_abc ∧ (∀ nd, nd ∈ demo_abc.elem_list_ → nd.first ≠ 43) ∧
      erase demo_abc 43 = some demo_abc ∧
      (erase demo_abc 43).bind (fun s => erase s 43) = some demo_abc :=
  ⟨demo_abc_reachable, by decide, erase_absent_noop demo_abc_reachable 43 (by decide)⟩

/-- C10: in every reachable state, distinct occupied slots reference distinct nodes, every
occupied slot references a node of the backing sequence, every node of the sequence (the nodes
have pairwise distinct identities) is referenced by exactly one occupied slot, and `size()`
equals both the number of occupied slots and the length of the sequence. -/
theorem table_sequence_bijection {m : HashMap K V} (hr : Reachable m) :
    (∀ p q, p < m.cap_ → q < m.cap_ → m.move_cnt_ p ≠ 0 → m.move_cnt_ q ≠ 0 →
      m.list_iters_ p = m.list_iters_ q → p = q) ∧
    (∀ p, p < m.cap_ → m.move_cnt_ p ≠ 0 →
      ∃ nd, nd ∈ m.elem_list_ ∧ deref m.elem_list_ (m.list_iters_ p) = some nd) ∧
    (m.elem_list_.map Node.id).Nodup ∧
    (∀ nd, nd ∈ m.elem_list_ →
      ∃! p, p < m.cap_ ∧ m.move_cnt_ p ≠ 0 ∧ m.list_iters_ p = Iter.node nd.id) ∧
    m.size = ((Finset.range m.cap_).filter (fun p => m.move_cnt_ p ≠ 0)).card ∧
    m.size = m.elem_list_.length := by
  have hI := hr.wf.1
  refine ⟨hI.table.inj, ?_, hI.nodup, ?_, ?_, hI.size_eq⟩
  · intro p hp ho
    obtain ⟨nd, hnd, _, hd, _⟩ := hI.deref_slot hp ho
    exact ⟨nd, hnd, hd⟩
  · intro nd hnd
    obtain ⟨p, hp, ho, hl⟩ := hI.cover nd hnd
    refine ⟨p, ⟨hp, ho, hl⟩, ?_⟩
    rintro q ⟨hq, hqo, hql⟩
    exact hI.table.inj q p hq hp hqo ho (by rw [hql, hl])
  · show m.size_ = _
    rw [hI.size_eq]
    have himg : ((Finset.range m.cap_).filter (fun p => m.move_cnt_ p ≠ 0)).image m.list_iters_
        = (m.elem_list_.map (fun nd => Iter.node nd.id)).toFinset := by
      ext it
      simp only [Finset.mem_image, Finset.mem_filter, Finset.mem_range, List.mem_toFinset,
        List.mem_map]
      constructor
      · rintro ⟨p, ⟨hp, ho⟩, hit⟩
        obtain ⟨nd, hnd, hl, _⟩ := hI.table.slot p hp ho
        exact ⟨nd, hnd, by rw [← hit, hl]⟩
      · rintro ⟨nd, hnd, hit⟩
        obtain ⟨p, hp, ho, hl⟩ := hI.cover nd hnd
        exact ⟨p, ⟨hp, ho⟩, by rw [hl, hit]⟩
    have hinj : Set.InjOn m.list_iters_
        (((Finset.range m.cap_).filter (fun p => m.move_cnt_ p ≠ 0)) : Finset Nat) := by
      intro p hp q hq hpq
      simp only [Finset.coe_filter, Finset.mem_range, Set.mem_setOf_eq] at hp hq
      exact hI.table.inj p q hp.1 hq.1 hp.2 hq.2 hpq
    have hnd2 : (m.elem_list_.map (fun nd => Iter.node nd.id)).Nodup := by
      have := List.Nodup.map (f := Iter.node) (fun a b hab => by injection hab) hI.nodup
      rwa [List.map_map] at this
    rw [← Finset.card_image_of_injOn hinj, himg, List.toFinset_card_of_nodup hnd2,
      List.length_map]

/-- Instance of `table_sequence_bijection` on the map holding the keys 10, 21, 32. -/
theorem table_sequence_bijection_witness :
    Reachable demo_abc ∧ demo_abc.size = 3 ∧
      ((Finset.range demo_abc.cap_).filter (fun p => demo_abc.move_cnt_ p ≠ 0)).card = 3 ∧
      demo_abc.elem_list_.length = 3 := by
  have h := table_sequence_bijection demo_abc_reachable
  have hs : demo_abc.size = 3 := rfl
  exact ⟨demo_abc_reachable, hs, by rw [← h.2.2.2.2.1, hs], by rw [← h.2.2.2.2.2, hs]⟩

/-- C11: on every reachable map (also one holding several entries with the same key), `clear()`
returns, and afterwards `size()` is 0, the iteration sequence is empty, every slot of the probe
table has displacement 0, and the capacity is the one of before the call. -/
theorem clear_keeps_capacity {m : HashMap K V} (hr : Reachable m) :
    ∃ m1, clear m = some m1 ∧ m1.size = 0 ∧ m1.elem_list_ = [] ∧ m1.entries = [] ∧
      (∀ p, p < m1.cap_ → m1.move_cnt_ p = 0) ∧ m1.cap_ = m.cap_ := by
  obtain ⟨m1, hc, _, hemp, hsz, hcap, _, hmc⟩ := clear_empties hr.wf
  exact ⟨m1, hc, hsz, hemp, by simp [HashMap.entries, hemp], hmc, hcap⟩

/-- Instance of `clear_keeps_capacity` on the map holding `(10, 1)` and `(10, 5)`. -/
theorem clear_keeps_capacity_witness :
    Reachable demo_dup ∧ demo_dup.entries = [(10, 1), (10, 5)] ∧
      ∃ m1, clear demo_dup = some m1 ∧ m1.size = 0 ∧ m1.entries = [] ∧ m1.cap_ = 11 := by
  obtain ⟨m1, h1, h2, _, h3, _, h4⟩ := clear_keeps_capacity demo_dup_reachable
  exact ⟨demo_dup_reachable, rfl, m1, h1, h2, h3, h4⟩

/-- C12: for every built map `other`, copy construction returns and leaves `other` as it was.
The copy is what inserting the pairs of `other`, in iteration order, into an empty table of
`max(11, 3 * other.size())` slots over the hash function of `other` gives; it has the iteration
sequence of `other` (same pairs, same order), the same `size()`, and capacity exactly
`max(11, 3 * other.size())` (no reinsertion rebuilds).  Its table is its own: every occupied
slot references a node of the copy at its exact displacement, every node of the copy has
exactly one slot, the occupied slots are `size()` many and `2 * size() ≤ capacity`.  Lookups on
the copy find the entries: `at(k)` throws for the keys absent from `other`, returns the value of
an entry of `other` with key `k` for the present ones, and agrees with `other.at(k)` for every
key that occurs at most once. -/
theorem copy_reproduces {other : HashMap K V} (hb : Built true other) :
    ∃ m, copy_call other = some (m, other) ∧ m.entries = other.entries ∧
      m.size = other.size ∧ m.cap_ = max 11 (3 * other.size) ∧
      insert_all (HashMap.mk_cap other.hasher_ (max 11 (3 * other.size))) other.entries
        = some m ∧
      m.hasher_ = other.hasher_ ∧ Built true m ∧ 2 * m.size ≤ m.cap_ ∧
      (∀ p, p < m.cap_ → m.move_cnt_ p ≠ 0 →
        ∃ nd, nd ∈ m.elem_list_ ∧ deref m.elem_list_ (m.list_iters_ p) = some nd ∧
          m.move_cnt_ p = displacement m nd.first p) ∧
      (∀ nd, nd ∈ m.elem_list_ →
        ∃! p, p < m.cap_ ∧ m.move_cnt_ p ≠ 0 ∧ m.list_iters_ p = Iter.node nd.id) ∧
      ((Finset.range m.cap_).filter (fun p => m.move_cnt_ p ≠ 0)).card = m.size ∧
      (∀ k, ((∀ nd, nd ∈ other.elem_list_ → nd.first ≠ k) →
          at_ m k = some (Except.error "Element not found")) ∧
        ((∃ nd, nd ∈ other.elem_list_ ∧ nd.first = k) →
          ∃ w, (k, w) ∈ other.entries ∧ at_ m k = some (Except.ok w)) ∧
        ((other.elem_list_.map Node.first).count k ≤ 1 → at_ m k = at_ other k)) := by
  have hWo := hb.well_formed
  obtain ⟨m, hc, hW, hent, hsz, hcap, hh⟩ := copy_ctor_spec hWo.1
  have hcap2 : m.cap_ = max 11 (3 * other.size) := by
    rw [hcap, Nat.mul_comm]; rfl
  refine ⟨m, by simp only [copy_call, hc, Option.map_some'], hent, hsz, hcap2,
    by rw [← copy_ctor_eq_insert_all]; exact hc, hh, Built.copy rfl hb hc, hW.2, ?_, ?_, ?_,
    at_of_same_entries hW hWo hent⟩
  · intro p hp ho
    obtain ⟨nd, hnd, _, hd, hpos⟩ := hW.1.deref_slot hp ho
    have hlt := counter_lt_cap hW hp
    have h1 := displacement_eq m nd.first (show m.move_cnt_ p - 1 < m.cap_ by omega)
    rw [← hpos] at h1
    exact ⟨nd, hnd, hd, by omega⟩
  · intro nd hnd
    obtain ⟨p, hp, ho, hl⟩ := hW.1.cover nd hnd
    refine ⟨p, ⟨hp, ho, hl⟩, ?_⟩
    rintro q ⟨hq, hqo, hql⟩
    exact hW.1.table.inj q p hq hp hqo ho (by rw [hql, hl])
  · rw [occupied_card hW.1]
    exact hW.1.size_eq.symm

/-- Instance of `copy_reproduces`: the copy of a map of 4 entries has capacity 12, and `at` on
the copy finds the keys 0 and 5 with their values and throws for the absent key 11. -/
theorem copy_reproduces_witness :
    Built true demo_four ∧
      ∃ m, copy_call demo_four = some (m, demo_four) ∧
        m.entries = [(0, 7), (1, 8), (1, 9), (5, 5)] ∧ m.size = 4 ∧ m.cap_ = 12 ∧
        at_ m 0 = some (Except.ok 7) ∧ at_ m 5 = some (Except.ok 5) ∧
        at_ m 11 = some (Except.error "Element not found") := by
  obtain ⟨m, h1, h2, h3, h4, _, _, _, _, _, _, _, h5⟩ :=
    copy_reproduces (demo_four_reachable.built true)
  refine ⟨demo_four_reachable.built true, m, h1, h2, h3, h4, ?_, ?_, (h5 11).1 (by decide)⟩
  · exact ((h5 0).2.2 (by decide)).trans rfl
  · exact ((h5 5).2.2 (by decide)).trans rfl

/-- C13 fails: the sixth `insert` into a default-constructed map rebuilds, and the iterator that
designated the node of `(0, 0)` before the call designates no node of the sequence after it;
the nodes after the call are all new (identities 6 to 11, against 0 to 4 before). -/
theorem rebuild_nodes_counterexample :
    Reachable demo_five ∧ demo_five.cap_ = 11 ∧
      demo_five.elem_list_.map Node.id = [0, 1, 2, 3, 4] ∧
      deref demo_five.elem_list_ (Iter.node 0) = some ⟨0, 0, 0⟩ ∧
      (insert demo_five 55 5).map
          (fun r => (r.1.cap_, r.1.elem_list_.map Node.id, deref r.1.elem_list_ (Iter.node 0)))
        = some (23, [6, 7, 8, 9, 10, 11], none) :=
  ⟨demo_five_reachable, rfl, rfl, rfl, rfl⟩

/-- C13 as amended: when an `insert` on a reachable map rebuilds, it returns with a larger
capacity and the pairs of the entries already present are kept in their order, but their nodes
are destroyed and recreated: no node of the sequence after the call has the identity of a node
of before, an iterator obtained before the call designates no node afterwards, and the probe
table references the new nodes. -/
theorem rebuild_recreates_nodes {m : HashMap K V} (hr : Reachable m) (k : K) (v : V)
    (hld : m.cap_ < 2 * (m.size + 1)) :
    ∃ m1 p, insert m k v = some (m1, p) ∧ m.cap_ < m1.cap_ ∧
      m1.entries = m.entries ++ [(k, v)] ∧
      (∀ nd od, nd ∈ m1.elem_list_ → od ∈ m.elem_list_ → nd.id ≠ od.id) ∧
      (∀ od, od ∈ m.elem_list_ → deref m1.elem_list_ (Iter.node od.id) = none) ∧
      (∀ nd, nd ∈ m1.elem_list_ →
        ∃ q, q < m1.cap_ ∧ m1.move_cnt_ q ≠ 0 ∧ m1.list_iters_ q = Iter.node nd.id) := by
  have hW := hr.wf
  obtain ⟨m1, p, hins, hW1, hent, _⟩ := insert_spec hW k v
  have hids := insert_rebuild_ids hW hld hins
  have hne : ∀ nd od, nd ∈ m1.elem_list_ → od ∈ m.elem_list_ → nd.id ≠ od.id := by
    intro nd od hnd hod
    have h1 := hids nd hnd
    have h2 := hW.1.fresh od hod
    omega
  refine ⟨m1, p, hins, ?_, hent, hne, ?_, hW1.1.cover⟩
  · obtain ⟨m2, p2, hins2, _, _, _, _, _, _, hbig⟩ := insert_aux_spec hW k v 0
    have heq : insert m k v = some (m2, p2) := hins2
    rw [hins] at heq
    injection heq with heq
    injection heq with h1 _
    subst h1
    obtain ⟨c1, hg, _, hle, _, _⟩ := grow_cap_rebuild m.cap_ hW.1.cap_pos
    have := hbig hld
    rw [hg] at this
    injection this with this
    omega
  · intro od hod
    cases hd : deref m1.elem_list_ (Iter.node od.id) with
    | none => rfl
    | some nd =>
      obtain ⟨hnd, hit⟩ := deref_some hd
      injection hit with hid
      exact absurd hid.symm (hne nd od hnd hod)

/-- Instance of `rebuild_recreates_nodes`: the sixth insert into a default-constructed map. -/
theorem rebuild_recreates_nodes_witness :
    Reachable demo_five ∧ demo_five.cap_ < 2 * (demo_five.size + 1) ∧
      ∃ m1 p, insert demo_five 55 5 = some (m1, p) ∧
        m1.entries = [(0, 0), (11, 1), (22, 2), (33, 3), (44, 4), (55, 5)] ∧
        deref m1.elem_list_ (Iter.node 0) = none := by
  obtain ⟨m1, p, h1, _, h2, _, h3, _⟩ :=
    rebuild_recreates_nodes demo_five_reachable 55 5 (by decide)
  exact ⟨demo_five_reachable, by decide, m1, p, h1, h2, h3 ⟨0, 0, 0⟩ (by decide)⟩

/-- C14: in every state of a map built by default, range, copy construction or assignment and
changed by public mutating calls, `2 * size() ≤ capacity`.  An `insert` on such a state runs
`rebuild` exactly when `size_ * 2 > cap_` holds after the increment, and the state it returns
satisfies the bound again; the reinsertions of `rebuild` are the calls `insert_aux 1`, which
return only when their own load check is negative, so no rebuild is nested in a rebuild. -/
theorem load_factor_invariant {m : HashMap K V} (hb : Built true m) (k : K) (v : V) :
    2 * m.size ≤ m.cap_ ∧
    (∃ m1 p mc, insert m k v = some (m1, p) ∧ insert_core m k v = some mc ∧
      mc.size = m.size + 1 ∧ mc.cap_ = m.cap_ ∧
      (mc.size * 2 > mc.cap_ → rebuild mc = some m1 ∧ mc.cap_ < m1.cap_) ∧
      (¬ mc.size * 2 > mc.cap_ → m1 = mc) ∧
      2 * m1.size ≤ m1.cap_) ∧
    (∀ (s s1 : HashMap K V) (k1 : K) (v1 : V) (p1 : Nat),
      insert_aux 1 s k1 v1 = some (s1, p1) →
        insert_core s k1 v1 = some s1 ∧ s1.size * 2 ≤ s1.cap_) := by
  have hW := hb.well_formed
  refine ⟨hW.2, ?_, fun s s1 k1 v1 p1 h => ⟨(insert_aux_one h).1, (insert_aux_one h).2.1⟩⟩
  obtain ⟨m1, p, hins, hW1, _⟩ := insert_spec hW k v
  obtain ⟨mc, hcore, hrb, hno, _⟩ := insert_unfold hins
  obtain ⟨_, hcap, hsz, _⟩ := insert_core_unfold hcore
  refine ⟨m1, p, mc, hins, hcore, hsz, hcap, fun hgt => ⟨hrb hgt, ?_⟩, hno, hW1.2⟩
  obtain ⟨m2, p2, hins2, _, _, _, _, _, _, hbig⟩ := insert_aux_spec hW k v 0
  have heq : insert m k v = some (m2, p2) := hins2
  rw [hins] at heq
  injection heq with heq
  injection heq with h1 _
  subst h1
  obtain ⟨c1, hg, _, hle, _, _⟩ := grow_cap_rebuild m.cap_ hW.1.cap_pos
  have hgt2 : mc.size_ * 2 > mc.cap_ := hgt
  have := hbig (by omega)
  rw [hg] at this
  injection this with this
  omega

/-- Instance of `load_factor_invariant` on the copy of a map of 4 entries (capacity 12), and for
an insert into it. -/
theorem load_factor_invariant_witness :
    Built true demo_copy ∧ demo_copy.size = 4 ∧ demo_copy.cap_ = 12 ∧
      2 * demo_copy.size ≤ demo_copy.cap_ ∧
      ∃ m1 p, insert demo_copy 9 9 = some (m1, p) ∧ 2 * m1.size ≤ m1.cap_ := by
  obtain ⟨h1, ⟨m1, p, _, h2, _, _, _, _, _, h3⟩, _⟩ := load_factor_invariant demo_copy_built 9 9
  exact ⟨demo_copy_built, rfl, rfl, h1, m1, p, h2, h3⟩

/-- C15 fails for copies: the copy of the reachable map of 4 entries is built with capacity
`max(11, 3 * 4) = 12`, which is even and not prime. -/
theorem capacity_prime_counterexample :
    Reachable demo_four ∧ demo_four.size = 4 ∧ copy_ctor demo_four = some demo_copy ∧
      Built true demo_copy ∧ demo_copy.cap_ = 12 ∧ ¬ Nat.Prime demo_copy.cap_ ∧
      demo_copy.cap_ % 2 = 0 := by
  refine ⟨demo_four_reachable, rfl, rfl, demo_copy_built, rfl, ?_, rfl⟩
  show ¬ Nat.Prime 12
  decide

/-- C15 as amended: the capacity of every built map is at least 11, and for the maps built
without copy construction and assignment (default, range or list construction, then public
mutating calls) it is an odd prime.  A map made by copy construction or by assignment from
another object has capacity `max(11, 3 * other.size())`, and a map assigned to itself has
capacity 11. -/
theorem capacity_odd_prime {b : Bool} {m : HashMap K V} (hb : Built b m) :
    11 ≤ m.cap_ ∧ (b = false → Nat.Prime m.cap_ ∧ m.cap_ % 2 = 1) ∧
    (∀ m1, copy_ctor m = some m1 → m1.cap_ = max 11 (3 * m.size)) ∧
    (∀ (self m1 : HashMap K V), Built b self → assign self m = some m1 →
      m1.cap_ = max 11 (3 * m.size)) ∧
    (∀ m1, assign_self m = some m1 → m1.cap_ = 11) := by
  have hcopy : ∀ {o : HashMap K V}, Built b o →
      (∀ m1, copy_ctor o = some m1 → m1.cap_ = max 11 (3 * o.size)) ∧
      (∀ (self m1 : HashMap K V), Built b self → assign self o = some m1 →
        m1.cap_ = max 11 (3 * o.size)) ∧
      (∀ m1, assign_self o = some m1 → m1.cap_ = 11) := by
    intro o ho
    have h3 : max 11 (o.size_ * 3) = max 11 (3 * o.size) := by
      rw [Nat.mul_comm]; rfl
    refine ⟨fun m1 h => ?_, fun self m1 hs h => ?_, fun m1 h => ?_⟩
    · obtain ⟨m2, h1, _, _, _, hcap, _⟩ := copy_ctor_spec ho.well_formed.1
      rw [h1] at h
      injection h with h
      rw [← h, hcap, h3]
    · obtain ⟨m2, h1, _, _, _, hcap, _⟩ := assign_spec hs.well_formed ho.well_formed.1
      rw [h1] at h
      injection h with h
      rw [← h, hcap, h3]
    · obtain ⟨m2, h1, _, _, _, hcap⟩ := assign_self_spec ho.well_formed
      rw [h1] at h
      injection h with h
      rw [← h, hcap]
  suffices hcore : 11 ≤ m.cap_ ∧ (b = false → Nat.Prime m.cap_ ∧ m.cap_ % 2 = 1) from
    ⟨hcore.1, hcore.2, hcopy hb⟩
  have h11 : Nat.Prime 11 ∧ 11 % 2 = 1 := ⟨by decide, rfl⟩
  clear hcopy
  induction hb with
  | init hasher => exact ⟨le_refl _, fun _ => h11⟩
  | range hasher l h =>
    obtain ⟨ha, hp⟩ := insert_all_cap_step l _ _ (mk_default_wf hasher) h
    exact ⟨ha (le_refl _), fun _ => hp h11⟩
  | copy hc hother h _ =>
    obtain ⟨m1, h1, _, _, _, hcap, _⟩ := copy_ctor_spec hother.well_formed.1
    rw [h1] at h
    injection h with h
    subst h
    exact ⟨by rw [hcap]; omega, fun hf => by rw [hc] at hf; exact absurd hf (by decide)⟩
  | assign hc hself hother h _ _ =>
    obtain ⟨m1, h1, _, _, _, hcap, _⟩ := assign_spec hself.well_formed hother.well_formed.1
    rw [h1] at h
    injection h with h
    subst h
    exact ⟨by rw [hcap]; omega, fun hf => by rw [hc] at hf; exact absurd hf (by decide)⟩
  | assign_self hc hself h _ =>
    obtain ⟨m1, h1, _, _, _, hcap⟩ := assign_self_spec hself.well_formed
    rw [h1] at h
    injection h with h
    subst h
    exact ⟨by rw [hcap], fun hf => by rw [hc] at hf; exact absurd hf (by decide)⟩
  | insert key val hm h ih =>
    obtain ⟨_, ha, hp⟩ := insert_cap_step hm.well_formed h
    exact ⟨ha ih.1, fun hf => hp (ih.2 hf)⟩
  | erase key hm h ih =>
    obtain ⟨m1, h1, _, _, hcap, _⟩ := erase_spec hm.well_formed key
    rw [h1] at h
    injection h with h
    subst h
    rw [hcap]; exact ih
  | index key hm h ih =>
    rcases index_state h with h1 | ⟨p, h1⟩
    · rw [h1]; exact ih
    · obtain ⟨_, ha, hp⟩ := insert_cap_step hm.well_formed h1
      exact ⟨ha ih.1, fun hf => hp (ih.2 hf)⟩
  | clear hm h ih =>
    obtain ⟨m1, h1, _, hcap, _⟩ := clear_spec hm.well_formed
    rw [h1] at h
    injection h with h
    subst h
    rw [hcap]; exact ih

/-- Instance of `capacity_odd_prime`: the map rebuilt by its sixth insert has capacity 23, and
the copy of a map of 4 entries has capacity `max(11, 3 * 4)`. -/
theorem capacity_odd_prime_witness :
    Built false demo_five ∧
      (∃ m1 p, insert demo_five 55 5 = some (m1, p) ∧ m1.cap_ = 23 ∧ Nat.Prime m1.cap_ ∧
        m1.cap_ % 2 = 1) ∧
      Built true demo_four ∧ copy_ctor demo_four = some demo_copy ∧
      demo_copy.cap_ = max 11 (3 * demo_four.size) := by
  obtain ⟨m1, p, h1, _⟩ := insert_spec demo_five_reachable.wf 55 5
  have hb : Built false m1 := Built.insert 55 5 (demo_five_reachable.built false) h1
  have h4 : (insert demo_five 55 5).map (fun r => r.1.cap_) = some 23 := rfl
  rw [h1] at h4
  have hp := (capacity_odd_prime hb).2.1 rfl
  exact ⟨demo_five_reachable.built false, ⟨m1, p, h1, Option.some.inj h4, hp.1, hp.2⟩,
    demo_four_reachable.built true, rfl,
    (capacity_odd_prime (demo_four_reachable.built true)).2.2.1 demo_copy rfl⟩

/-- C17: in every reachable state, every slot `p < cap_` with counter `d = move_cnt_[p] ≥ 1`
references a node of the sequence, with key `k` say, and `1 ≤ d ≤ cap_` and
`p = (hasher_(k) % cap_ + (d - 1)) % cap_`: the node is exactly `d - 1` probe steps past its
ideal slot, that is, `d` is its displacement in slot `p`. -/
theorem displacement_exact {m : HashMap K V} (hr : Reachable m) (p : Nat) (hp : p < m.cap_)
    (ho : m.move_cnt_ p ≠ 0) :
    ∃ nd, nd ∈ m.elem_list_ ∧ deref m.elem_list_ (m.list_iters_ p) = some nd ∧
      1 ≤ m.move_cnt_ p ∧ m.move_cnt_ p ≤ m.cap_ ∧
      p = (m.hasher_ nd.first % m.cap_ + (m.move_cnt_ p - 1)) % m.cap_ ∧
      m.move_cnt_ p = displacement m nd.first p := by
  have hW := hr.wf
  obtain ⟨nd, hnd, _, hd, hpos⟩ := hW.1.deref_slot hp ho
  have hlt := counter_lt_cap hW hp
  refine ⟨nd, hnd, hd, by omega, by omega, by rw [Nat.mod_add_mod]; exact hpos, ?_⟩
  have h1 := displacement_eq m nd.first (show m.move_cnt_ p - 1 < m.cap_ by omega)
  rw [← hpos] at h1
  omega

/-- Instance of `displacement_exact`: in the map holding the keys 10, 21, 32 (ideal slot 10 of
11 for all three), slot 1 holds the key 32 with counter 3. -/
theorem displacement_exact_witness :
    Reachable demo_abc ∧ 1 < demo_abc.cap_ ∧ demo_abc.move_cnt_ 1 ≠ 0 ∧
      demo_abc.move_cnt_ 1 = 3 ∧
      deref demo_abc.elem_list_ (demo_abc.list_iters_ 1) = some ⟨2, 32, 3⟩ ∧
      1 = (demo_hash 32 % 11 + (3 - 1)) % 11 ∧
      ∃ nd, nd ∈ demo_abc.elem_list_ ∧ demo_abc.move_cnt_ 1 = displacement demo_abc nd.first 1 := by
  obtain ⟨nd, h1, _, _, _, _, h2⟩ :=
    displacement_exact demo_abc_reachable 1 (by decide) (by decide)
  exact ⟨demo_abc_reachable, by decide, by decide, rfl, rfl, rfl, nd, h1, h2⟩

/-- C18 fails in its last consequence: in the reachable map holding the keys 10 and 21 (both
with ideal slot 10 of 11), slot 10 holds 10 with counter 1 and its successor, slot 0, holds 21
with counter 2; exchanged with the entry stored before it in the run, 21 would sit in its ideal
slot, with displacement 1. -/
theorem robin_hood_exchange_counterexample :
    Reachable demo_ab ∧ demo_ab.cap_ = 11 ∧ wrap_inc 11 10 = 0 ∧
      demo_ab.move_cnt_ 10 = 1 ∧ demo_ab.move_cnt_ 0 = 2 ∧
      deref demo_ab.elem_list_ (demo_ab.list_iters_ 10) = some ⟨0, 10, 1⟩ ∧
      deref demo_ab.elem_list_ (demo_ab.list_iters_ 0) = some ⟨1, 21, 2⟩ ∧
      displacement demo_ab 21 10 = 1 ∧
      ¬ (∀ i nd, i < demo_ab.cap_ → demo_ab.move_cnt_ i ≠ 0 →
          demo_ab.move_cnt_ (wrap_inc demo_ab.cap_ i) ≠ 0 →
          deref demo_ab.elem_list_ (demo_ab.list_iters_ (wrap_inc demo_ab.cap_ i)) = some nd →
          ¬ displacement demo_ab nd.first i < demo_ab.move_cnt_ (wrap_inc demo_ab.cap_ i)) := by
  refine ⟨demo_ab_reachable, rfl, rfl, rfl, rfl, rfl, rfl, rfl, fun h => ?_⟩
  exact h 10 ⟨1, 21, 2⟩ (by decide) (by decide) (by decide) rfl (by decide)

/-- C18 as amended: in every reachable state, for every slot `i` with successor `j`,
`move_cnt_[j] ≤ move_cnt_[i] + 1`.  Consequently a slot that follows an empty slot holds 0 or 1,
every slot between the ideal slot of an entry and the slot that holds it is occupied, and the
entries of a run are ordered by ideal slot: a slot `n` steps after a slot `x` holds at most the
counter of `x` plus `n`, and when `i` and `j` are both occupied the entry of `i` would have in
slot `j` a displacement at least that of the entry stored there. -/
theorem robin_hood_ordering {m : HashMap K V} (hr : Reachable m) :
    (∀ i, i < m.cap_ → m.move_cnt_ (wrap_inc m.cap_ i) ≤ m.move_cnt_ i + 1) ∧
    (∀ i, i < m.cap_ → m.move_cnt_ i = 0 → m.move_cnt_ (wrap_inc m.cap_ i) ≤ 1) ∧
    (∀ p nd, p < m.cap_ → m.move_cnt_ p ≠ 0 →
      deref m.elem_list_ (m.list_iters_ p) = some nd →
      ∀ t, t < m.move_cnt_ p → m.move_cnt_ ((m.hasher_ nd.first % m.cap_ + t) % m.cap_) ≠ 0) ∧
    (∀ x n, m.move_cnt_ ((x + n) % m.cap_) ≤ m.move_cnt_ (x % m.cap_) + n) ∧
    (∀ i nd, i < m.cap_ → m.move_cnt_ i ≠ 0 → m.move_cnt_ (wrap_inc m.cap_ i) ≠ 0 →
      deref m.elem_list_ (m.list_iters_ i) = some nd →
      m.move_cnt_ (wrap_inc m.cap_ i) ≤ displacement m nd.first (wrap_inc m.cap_ i)) := by
  have hW := hr.wf
  have hc := hW.1.cap_pos
  refine ⟨hW.1.table.rh, fun i hi h0 => ?_, ?_, hW.1.table.chain hc, ?_⟩
  · have := hW.1.table.rh i hi
    omega
  · intro p nd hp ho hd t ht
    obtain ⟨nd2, _, _, hd2, hpos⟩ := hW.1.deref_slot hp ho
    rw [hd] at hd2
    injection hd2 with hd2
    subst hd2
    have hch := hW.1.table.chain hc (m.hasher_ nd.first + t) (m.move_cnt_ p - 1 - t)
    rw [show m.hasher_ nd.first + t + (m.move_cnt_ p - 1 - t)
        = m.hasher_ nd.first + (m.move_cnt_ p - 1) by omega, ← hpos] at hch
    rw [Nat.mod_add_mod]
    omega
  · intro i nd hi ho _ hd
    obtain ⟨nd2, _, _, hd2, hpos⟩ := hW.1.deref_slot hi ho
    rw [hd] at hd2
    injection hd2 with hd2
    subst hd2
    have hlt := counter_lt_cap hW hi
    have h1 := displacement_eq m nd.first hlt
    have hw := wrap_inc_mod hc (m.hasher_ nd.first + (m.move_cnt_ i - 1))
    rw [← hpos, show m.hasher_ nd.first + (m.move_cnt_ i - 1) + 1
        = m.hasher_ nd.first + m.move_cnt_ i by omega] at hw
    rw [hw, h1]
    have := hW.1.table.rh i hi
    rw [hw] at this
    exact this

/-- Instance of `robin_hood_ordering` on the map holding the keys 10, 21, 32: the run occupies
the slots 10, 0, 1 with the counters 1, 2, 3. -/
theorem robin_hood_ordering_witness :
    Reachable demo_abc ∧
      (List.range 11).map demo_abc.move_cnt_ = [2, 3, 0, 0, 0, 0, 0, 0, 0, 0, 1] ∧
      ∀ i, i < demo_abc.cap_ →
        demo_abc.move_cnt_ (wrap_inc demo_abc.cap_ i) ≤ demo_abc.move_cnt_ i + 1 :=
  ⟨demo_abc_reachable, rfl, (robin_hood_ordering demo_abc_reachable).1⟩

/-- C19: in every reachable state `cap_ ≥ 1` and some slot is empty, and for every key: the scan
of `find_pos` returns within `cap_` inspected slots, the probe loop of `insert` returns within
`cap_` iterations and does so by storing into a slot that was empty, and the backward shift of
`erase` returns within `cap_` tests of its condition, hence after fewer than `cap_` iterations
of its body. -/
theorem probe_loops_terminate {m : HashMap K V} (hr : Reachable m) (k : K) :
    1 ≤ m.cap_ ∧ (∃ e, e < m.cap_ ∧ m.move_cnt_ e = 0) ∧
    (∃ p, find_pos_loop m k m.cap_ (m.hasher_ k % m.cap_) = some p ∧ p < m.cap_) ∧
    (∃ mc1 li1 q,
      insert_loop m.cap_ m.cap_ m.move_cnt_ m.list_iters_ (m.hasher_ k % m.cap_)
        (Iter.node m.fresh_) 1 = some (mc1, li1) ∧ m.move_cnt_ q = 0 ∧ mc1 q ≠ 0) ∧
    (∀ pos, find_pos m k = some pos → m.move_cnt_ pos ≠ 0 →
      ∃ r, erase_loop m.cap_ m.cap_ (Function.update m.move_cnt_ pos 0) m.list_iters_ pos
        (if pos + 1 = m.cap_ then 0 else pos + 1) = some r) := by
  have hW := hr.wf
  refine ⟨hW.1.cap_pos, hW.1.free_slot hW.size_lt, ?_, ?_, ?_⟩
  · obtain ⟨p, hfp, hp, _⟩ := find_pos_spec hW.1 hW.size_lt k
    exact ⟨p, hfp, hp⟩
  · obtain ⟨mc, hcore, _⟩ := insert_core_spec hW.1 hW.size_lt k (default : V)
    obtain ⟨_, _, _, _, mc1, li1, hl, _, _⟩ := insert_core_unfold hcore
    obtain ⟨q, hq0, hq1⟩ := insert_loop_stores _ _ _ _ _ _ _ _ _ (le_refl 1) hl
    exact ⟨mc1, li1, q, hl, hq0, hq1⟩
  · intro pos hfp ho
    obtain ⟨m1, he, _⟩ := erase_spec hW k
    unfold erase at he
    rw [hfp] at he
    simp only [ho, if_false] at he
    cases hle : list_erase m.elem_list_ (m.list_iters_ pos) with
    | none => rw [hle] at he; exact absurd he (by simp)
    | some el =>
      rw [hle] at he
      cases hlp : erase_loop m.cap_ m.cap_ (Function.update m.move_cnt_ pos 0) m.list_iters_ pos
          (if pos + 1 = m.cap_ then 0 else pos + 1) with
      | none => rw [hlp] at he; exact absurd he (by simp)
      | some r => exact ⟨r, rfl⟩

/-- Instance of `probe_loops_terminate` on the map holding the keys 10, 21, 32, for the key 10,
whose erasure shifts the two other entries back. -/
theorem probe_loops_terminate_witness :
    Reachable demo_abc ∧ find_pos demo_abc 10 = some 10 ∧ demo_abc.move_cnt_ 10 ≠ 0 ∧
      ∃ r, erase_loop demo_abc.cap_ demo_abc.cap_ (Function.update demo_abc.move_cnt_ 10 0)
        demo_abc.list_iters_ 10 (if 10 + 1 = demo_abc.cap_ then 0 else 10 + 1) = some r :=
  ⟨demo_abc_reachable, rfl, by decide,
    (probe_loops_terminate demo_abc_reachable 10).2.2.2.2 10 rfl (by decide)⟩

/-- C20 fails when the other key occurs twice: in the reachable map holding `(0, 7)`, `(1, 8)`,
`(1, 9)`, `(5, 5)`, `at(1)` returns 8; `insert(11, 3)` displaces the node of `(1, 8)` past the
node of `(1, 9)`, and `at(1)` returns 9 afterwards. -/
theorem insert_frame_counterexample :
    Reachable demo_four ∧ demo_four.entries = [(0, 7), (1, 8), (1, 9), (5, 5)] ∧
      at_ demo_four 1 = some (Except.ok 8) ∧
      (insert demo_four 11 3).map (fun r => at_ r.1 1) = some (some (Except.ok 9)) ∧
      ¬ (∀ m1 p w, insert demo_four 11 3 = some (m1, p) →
          at_ demo_four 1 = some (Except.ok w) → at_ m1 1 = some (Except.ok w)) := by
  refine ⟨demo_four_reachable, rfl, rfl, rfl, fun h => ?_⟩
  obtain ⟨m1, p, hins, _⟩ := insert_spec demo_four_reachable.wf 11 3
  have h1 := h m1 p 8 hins rfl
  have h2 : (insert demo_four 11 3).map (fun r => at_ r.1 1) = some (some (Except.ok 9)) := rfl
  rw [hins] at h2
  simp only [Option.map_some'] at h2
  rw [h1] at h2
  injection h2 with h2
  injection h2 with h2
  injection h2 with h2
  exact absurd h2 (by decide)

/-- C20 as amended: on every reachable map, for distinct keys `k ≠ k1` where `k1` occurs at most
once in the backing sequence, `insert(k, v)` returns and `at(k1)` gives afterwards what it gave
before: the same value, or the same key-not-found error. -/
theorem insert_frame {m : HashMap K V} (hr : Reachable m) (k k1 : K) (v : V) (hne : k ≠ k1)
    (hone : (m.elem_list_.map Node.first).count k1 ≤ 1) :
    ∃ m1 p, insert m k v = some (m1, p) ∧ at_ m1 k1 = at_ m k1 := by
  have hW := hr.wf
  obtain ⟨m1, p, hins, hW1, hent, _⟩ := insert_spec hW k v
  refine ⟨m1, p, hins, ?_⟩
  have hback : ∀ nd, nd ∈ m1.elem_list_ → nd.first = k1 →
      ∃ x, x ∈ m.elem_list_ ∧ x.first = k1 ∧ x.second = nd.second := by
    intro nd hnd hk
    have h1 : (k1, nd.second) ∈ m1.entries := mem_entries.2 ⟨nd, hnd, hk, rfl⟩
    rw [hent] at h1
    rcases List.mem_append.1 h1 with h2 | h2
    · exact mem_entries.1 h2
    · simp only [List.mem_singleton, Prod.mk.injEq] at h2
      exact absurd h2.1.symm hne
  by_cases hex : ∃ nd, nd ∈ m.elem_list_ ∧ nd.first = k1
  · obtain ⟨nd0, hnd0, hk0, hat0⟩ := (at_wf hW k1).1 hex
    have hex1 : ∃ nd, nd ∈ m1.elem_list_ ∧ nd.first = k1 := by
      have : (k1, nd0.second) ∈ m1.entries := by
        rw [hent]
        exact List.mem_append_left _ (mem_entries.2 ⟨nd0, hnd0, hk0, rfl⟩)
      obtain ⟨x, hx, hxk, _⟩ := mem_entries.1 this
      exact ⟨x, hx, hxk⟩
    obtain ⟨nd1, hnd1, hk1, hat1⟩ := (at_wf hW1 k1).1 hex1
    obtain ⟨x, hx, hxk, hxv⟩ := hback nd1 hnd1 hk1
    have : x = nd0 := unique_of_count_le_one hone x nd0 hx hnd0 hxk hk0
    rw [hat1, hat0, ← hxv, this]
  · have hno : ∀ nd, nd ∈ m.elem_list_ → nd.first ≠ k1 := fun nd hnd hk => hex ⟨nd, hnd, hk⟩
    have hno1 : ∀ nd, nd ∈ m1.elem_list_ → nd.first ≠ k1 := by
      intro nd hnd hk
      obtain ⟨x, hx, hxk, _⟩ := hback nd hnd hk
      exact hno x hx hxk
    rw [(at_wf hW k1).2 hno, (at_wf hW1 k1).2 hno1]

/-- Instance of `insert_frame`: inserting the key 43 into the map holding 10, 21, 32 leaves
`at(21)` at 2. -/
theorem insert_frame_witness :
    Reachable demo_abc ∧ (43 : Nat) ≠ 21 ∧
      (demo_abc.elem_list_.map Node.first).count 21 ≤ 1 ∧
      ∃ m1 p, insert demo_abc 43 0 = some (m1, p) ∧ at_ m1 21 = some (Except.ok 2) := by
  obtain ⟨m1, p, h1, h2⟩ := insert_frame demo_abc_reachable 43 21 0 (by decide) (by decide)
  exact ⟨demo_abc_reachable, by decide, by decide, m1, p, h1, h2.trans rfl⟩

end claims

end Hashmap
